import Mathlib

/-!
The cryptoengine storage layer: a shallow embedding of `storage.go` and `storage_aws.go`.

The Go package defines the `Storage` interface (`Read`, `Write`, `Delete`) and two
implementations: `StorageMemory`, a map held in process memory, and `StorageAws`, a
cache in front of AWS Secrets Manager.

Modelling conventions.

* A Go `[]byte` is `Bytes := Option (List Byte)`; `none` is the `nil` slice.
* A Go `map[string][]byte` is `GoMap := Option (String → Option Bytes)`; `none` is the
  `nil` map, and `m name = none` means the key is absent (`ok = false`).
* A Go `error` is `Option Error`; `none` is the `nil` error.
* A pointer receiver is an `Option` of the struct; `none` is the `nil` pointer.  Every
  method returns the receiver after the call next to its Go results.
* The Secrets Manager client is an external collaborator.  It is a record of four
  transition functions over an arbitrary state `σ`, so that every deterministic
  behaviour of the service (including one that fails at will) is an instance.  The
  `World` threads the service state and the log of the calls issued so far.
* The field `secretsManager` of a `StorageAws` always holds a client, as after
  `NewStorageAws`; what a call through a nil client pointer does is decided inside the
  AWS SDK, not in this package.
* Slices are values: aliasing of a stored `[]byte` with the caller's backing array is
  not modelled.
-/

namespace Cryptoengine

/-! ## Go values -/

/-- One octet. -/
abbrev Byte := Fin 256

/-- Go `[]byte`: `none` is the nil slice. -/
abbrev Bytes := Option (List Byte)

/-- Go `error` values that occur in the package.  `aws` is a value implementing
`awserr.Error` (it has a `Code()`), `new` is `errors.New` or any other plain error,
`withMessage` is what `errors.WithMessagef` returns. -/
inductive Error where
  | new (msg : String)
  | aws (code : String) (message : String)
  | withMessage (cause : Error) (msg : String)
  deriving DecidableEq, Repr

/-- Contents of a non-nil Go `map[string][]byte`. -/
abbrev Entries := String → Option Bytes

/-- Go `map[string][]byte`: `none` is the nil map. -/
abbrev GoMap := Option Entries

/-- The result of `make(map[string][]byte)`. -/
def Entries.empty : Entries := fun _ => none

/-- The statement `m[name] = dat` on a non-nil map. -/
def Entries.set (m : Entries) (name : String) (dat : Bytes) : Entries :=
  fun k => if k = name then some dat else m k

/-- The builtin `delete(m, name)` on a non-nil map. -/
def Entries.delete (m : Entries) (name : String) : Entries :=
  fun k => if k = name then none else m k

/-- The two-valued index expression `dat, ok := m[name]`; it is defined on the nil map
too, where every key is absent. -/
def GoMap.lookup (m : GoMap) (name : String) : Option Bytes :=
  match m with
  | none => none
  | some e => e name

/-! ## storage.go -/

/-- The struct `StorageMemory`. -/
structure StorageMemory where
  keys : GoMap

/-- The method `(*StorageMemory).Read`. -/
def StorageMemory.Read (s : Option StorageMemory) (name : String) :
    (Bytes × Option Error) × Option StorageMemory :=
  match s with
  | none => ((none, none), none)
  | some s =>
    let keys : Entries := match s.keys with
      | none => Entries.empty
      | some e => e
    let dat : Bytes := (keys name).getD none
    ((dat, none), some { s with keys := some keys })

/-- The method `(*StorageMemory).Write`. -/
def StorageMemory.Write (s : Option StorageMemory) (name : String) (dat : Bytes) :
    Option Error × Option StorageMemory :=
  match s with
  | none => (none, none)
  | some s =>
    let keys : Entries := match s.keys with
      | none => Entries.empty
      | some e => e
    (none, some { s with keys := some (keys.set name dat) })

/-- The method `(*StorageMemory).Delete`. -/
def StorageMemory.Delete (s : Option StorageMemory) (name : String) :
    Option Error × Option StorageMemory :=
  match s with
  | none => (none, none)
  | some s =>
    match s.keys with
    | none => (none, some s)
    | some e => (none, some { s with keys := some (e.delete name) })

/-- The constructor `NewStorageMemory`. -/
def NewStorageMemory : Option StorageMemory × Option Error :=
  (some { keys := some Entries.empty }, none)

/-! ## path/filepath (Unix), as used by storage_aws.go

`storage_aws.go` builds every remote identifier with `filepath.Join(s.secretPrefix, name)`.
`Join` and `Clean` are transcribed from the Go standard library; a Go string is a Lean
`String` and the separator is `/`. -/

/-- The function `os.IsPathSeparator` on Unix. -/
def isPathSeparator (c : Char) : Bool := c = '/'

/-- The inner loop of the `..` case of `Clean`, after the first `out.w--`:
`for out.w > dotdot && !os.IsPathSeparator(out.index(out.w)) { out.w-- }`.
The argument and the result are the write index `out.w`. -/
def cleanBacktrack (out : List Char) (dotdot : Nat) : Nat → Nat
  | 0 => 0
  | w + 1 =>
    if w + 1 > dotdot && !isPathSeparator (out.getD (w + 1) '/') then
      cleanBacktrack out dotdot w
    else w + 1

/-- The main loop `for r < n { switch { ... } }` of `Clean`.  `out` is the written part of
the buffer (its length is `out.w`); the first argument bounds the number of iterations,
and every iteration advances `r`, so `path.length` iterations are enough. -/
def cleanLoop (path : List Char) (rooted : Bool) : Nat → Nat → List Char → Nat → List Char
  | 0, _, out, _ => out
  | fuel + 1, r, out, dotdot =>
    if r < path.length then
      if isPathSeparator (path.getD r '/') then
        -- empty path element
        cleanLoop path rooted fuel (r + 1) out dotdot
      else if path.getD r '/' = '.' &&
          (r + 1 == path.length || isPathSeparator (path.getD (r + 1) '/')) then
        -- . element
        cleanLoop path rooted fuel (r + 1) out dotdot
      else if path.getD r '/' = '.' && path.getD (r + 1) '/' = '.' &&
          (r + 2 == path.length || isPathSeparator (path.getD (r + 2) '/')) then
        -- .. element: remove to last separator
        if out.length > dotdot then
          -- can backtrack
          cleanLoop path rooted fuel (r + 2)
            (out.take (cleanBacktrack out dotdot (out.length - 1))) dotdot
        else if !rooted then
          -- cannot backtrack, but not rooted, so append .. element
          let out1 := if out.length > 0 then out ++ ['/'] else out
          let out2 := out1 ++ ['.', '.']
          cleanLoop path rooted fuel (r + 2) out2 out2.length
        else
          cleanLoop path rooted fuel (r + 2) out dotdot
      else
        -- real path element: add slash if needed, then copy the element
        let out1 :=
          if (rooted && out.length != 1) || (!rooted && out.length != 0) then out ++ ['/']
          else out
        let elem := (path.drop r).takeWhile (fun c => !isPathSeparator c)
        cleanLoop path rooted fuel (r + elem.length) (out1 ++ elem) dotdot
    else out

/-- The function `filepath.Clean` on Unix (no volume name, `FromSlash` is the identity). -/
def filepathClean (path : String) : String :=
  if path = "" then "."
  else
    let p := path.toList
    let rooted := isPathSeparator (p.getD 0 '/')
    let out := cleanLoop p rooted p.length (if rooted then 1 else 0)
      (if rooted then ['/'] else []) (if rooted then 1 else 0)
    -- Turn empty string into "."
    String.mk (if out.length = 0 then ['.'] else out)

/-- The function `filepath.Join` on Unix: the elements from the first non-empty one on
are joined with the separator and cleaned; if all are empty the result is empty. -/
def filepathJoin : List String → String
  | [] => ""
  | e :: rest =>
    if e ≠ "" then filepathClean (String.intercalate "/" (e :: rest))
    else filepathJoin rest

/-- A path segment that `Clean` copies as it is: not empty, without a separator, and
neither `.` nor `..`. -/
def plainSegment (seg : List Char) : Bool :=
  seg ≠ [] && seg.all (fun c => !isPathSeparator c) && seg ≠ ['.'] && seg ≠ ['.', '.']

/-- The segments joined with the separator. -/
def joinSegments : List (List Char) → List Char
  | [] => []
  | [seg] => seg
  | seg :: rest => seg ++ '/' :: joinSegments rest

/-! ## The elements of a path, and `Clean` seen element by element -/

/-- The path split at every separator; the pieces may be empty. -/
def splitSep : List Char → List (List Char)
  | [] => [[]]
  | c :: cs =>
    if isPathSeparator c then [] :: splitSep cs
    else
      match splitSep cs with
      | [] => [[c]]
      | seg :: rest => (c :: seg) :: rest

/-- The path elements: the non-empty pieces between separators. -/
def pathElems (path : List Char) : List (List Char) :=
  (splitSep path).filter (fun seg => !seg.isEmpty)

/-- What one iteration of the loop of `Clean` does with a whole path element. -/
def cleanElem (rooted : Bool) (st : List Char × Nat) (seg : List Char) : List Char × Nat :=
  if seg = ['.'] then st
  else if seg = ['.', '.'] then
    if st.1.length > st.2 then
      (st.1.take (cleanBacktrack st.1 st.2 (st.1.length - 1)), st.2)
    else if !rooted then
      ((if st.1.length > 0 then st.1 ++ ['/'] else st.1) ++ ['.', '.'],
        ((if st.1.length > 0 then st.1 ++ ['/'] else st.1) ++ ['.', '.']).length)
    else st
  else
    ((if (rooted && st.1.length != 1) || (!rooted && st.1.length != 0) then st.1 ++ ['/']
      else st.1) ++ seg, st.2)

/-- No `..` element climbs above the start: `depth` counts the elements entered so far. -/
def noClimb : Nat → List (List Char) → Bool
  | _, [] => true
  | depth, seg :: rest =>
    if seg = ['.'] then noClimb depth rest
    else if seg = ['.', '.'] then depth != 0 && noClimb (depth - 1) rest
    else noClimb (depth + 1) rest


/-- The buffer and the `dotdot` mark with which the loop of `Clean` starts. -/
def cleanStart (rooted : Bool) : List Char × Nat :=
  if rooted then (['/'], 1) else ([], 0)

/-- The elements entered below a prefix, as they stand in the buffer of `Clean`: each
after a separator. -/
def stackTail : List (List Char) → List Char
  | [] => []
  | s :: rest => '/' :: s ++ stackTail rest

/-- The state of the loop of `Clean` while it works below a prefix `P` that it has
copied to the buffer: the mark `dotdot` lies within `P`, and the buffer is `P` followed by
the elements entered since, which `stack` lists. -/
def BelowPrefix (P : List Char) (rooted : Bool) (stack : List (List Char))
    (st : List Char × Nat) : Prop :=
  st.2 ≤ P.length ∧ (rooted = true → st.2 = 1) ∧
  (∀ s ∈ stack, s ≠ [] ∧ s.all (fun c => !isPathSeparator c) = true) ∧
  st.1 = if P = ['/'] ∧ stack ≠ [] then stackTail stack else P ++ stackTail stack

/-! ## The Secrets Manager client, as storage_aws.go uses it -/

/-- The constant `secretsmanager.ErrCodeResourceNotFoundException`. -/
def ErrCodeResourceNotFoundException : String := "ResourceNotFoundException"

/-- The constant `secretsmanager.ErrCodeResourceExistsException`. -/
def ErrCodeResourceExistsException : String := "ResourceExistsException"

/-- The struct `secretsmanager.GetSecretValueOutput`, reduced to the field that is read. -/
structure GetSecretValueOutput where
  SecretBinary : Bytes
  deriving DecidableEq, Repr

/-- A request sent to the service, with the input fields that storage_aws.go fills in. -/
inductive Call where
  | GetSecretValue (secretId : String)
  | CreateSecret (name : String) (secretBinary : Bytes)
  | UpdateSecret (secretId : String) (secretBinary : Bytes)
  | DeleteSecret (secretId : String)
  deriving DecidableEq, Repr

/-- The four operations of `*secretsmanager.SecretsManager` that the package calls.  Each
takes the request fields and the state of the service and gives the Go result
(`Except.error err` for `err != nil`) and the state of the service afterwards. -/
structure SecretsManager (σ : Type) where
  GetSecretValue : String → σ → Except Error GetSecretValueOutput × σ
  CreateSecret : String → Bytes → σ → Except Error Unit × σ
  UpdateSecret : String → Bytes → σ → Except Error Unit × σ
  DeleteSecret : String → σ → Except Error Unit × σ

/-- What lies outside the store: the state of the service and the calls issued so far,
oldest first. -/
structure World (σ : Type) where
  remote : σ
  calls : List Call

/-- The test `if aerr, ok := err.(awserr.Error); ok { switch aerr.Code() { case code: ... } }`:
true exactly when `err` itself is an `awserr.Error` whose code is `code`. -/
def Error.hasCode (err : Error) (code : String) : Bool :=
  match err with
  | .aws c _ => c = code
  | _ => false

/-- The call `errors.WithMessagef(err, format, secretId)` for the formats
`"<op> for %s failed"` of storage_aws.go. -/
def withMessagef (err : Error) (op : String) (secretId : String) : Error :=
  .withMessage err (op ++ " for " ++ secretId ++ " failed")

/-! ## storage_aws.go -/

/-- The struct `StorageAws`. -/
structure StorageAws (σ : Type) where
  keys : GoMap
  secretsManager : SecretsManager σ
  secretPrefix : String

/-- The method `(*StorageAws).Read`. -/
def StorageAws.Read {σ : Type} (s : Option (StorageAws σ)) (name : String) (w : World σ) :
    (Bytes × Option Error) × Option (StorageAws σ) × World σ :=
  match s with
  | none => ((none, none), none, w)
  | some s =>
    let keys : Entries := match s.keys with
      | none => Entries.empty
      | some e => e
    match keys name with
    | some dat => ((dat, none), some { s with keys := some keys }, w)
    | none =>
      let secretId := filepathJoin [s.secretPrefix, name]
      let r := s.secretsManager.GetSecretValue secretId w.remote
      let w1 : World σ := { remote := r.2, calls := w.calls ++ [Call.GetSecretValue secretId] }
      match r.1 with
      | .error err =>
        let awsSecretIDNotFound := err.hasCode ErrCodeResourceNotFoundException
        if !awsSecretIDNotFound then
          ((none, some (withMessagef err "Get secret value" secretId)),
            some { s with keys := some keys }, w1)
        else
          ((none, none), some { s with keys := some keys }, w1)
      | .ok res =>
        let dat := res.SecretBinary
        ((dat, none), some { s with keys := some (keys.set name dat) }, w1)

/-- The method `(*StorageAws).Write`. -/
def StorageAws.Write {σ : Type} (s : Option (StorageAws σ)) (name : String) (dat : Bytes)
    (w : World σ) : Option Error × Option (StorageAws σ) × World σ :=
  match s with
  | none => (none, none, w)
  | some s =>
    let secretId := filepathJoin [s.secretPrefix, name]
    let r := s.secretsManager.CreateSecret secretId dat w.remote
    let w1 : World σ := { remote := r.2, calls := w.calls ++ [Call.CreateSecret secretId dat] }
    let store : World σ → Option Error × Option (StorageAws σ) × World σ := fun w2 =>
      let keys : Entries := match s.keys with
        | none => Entries.empty
        | some e => e
      (none, some { s with keys := some (keys.set name dat) }, w2)
    match r.1 with
    | .error err =>
      let awsSecretExists := err.hasCode ErrCodeResourceExistsException
      if !awsSecretExists then
        (some (withMessagef err "Put secret value" secretId), some s, w1)
      else
        let u := s.secretsManager.UpdateSecret secretId dat w1.remote
        let w2 : World σ :=
          { remote := u.2, calls := w1.calls ++ [Call.UpdateSecret secretId dat] }
        match u.1 with
        | .error err => (some err, some s, w2)
        | .ok _ => store w2
    | .ok _ => store w1

/-- The method `(*StorageAws).Delete`. -/
def StorageAws.Delete {σ : Type} (s : Option (StorageAws σ)) (name : String) (w : World σ) :
    Option Error × Option (StorageAws σ) × World σ :=
  match s with
  | none => (none, none, w)
  | some s =>
    match s.keys with
    | none => (none, some s, w)
    | some e =>
      let s1 : StorageAws σ := { s with keys := some (e.delete name) }
      let secretId := filepathJoin [s.secretPrefix, name]
      let r := s.secretsManager.DeleteSecret secretId w.remote
      let w1 : World σ := { remote := r.2, calls := w.calls ++ [Call.DeleteSecret secretId] }
      match r.1 with
      | .error err =>
        let awsSecretIDNotFound := err.hasCode ErrCodeResourceNotFoundException
        if !awsSecretIDNotFound then
          (some (withMessagef err "Delete secret value" secretId), some s1, w1)
        else (none, some s1, w1)
      | .ok _ => (none, some s1, w1)

/-- The constructor `NewStorageAws`.  `Session` stands for `session.Session` and
`secretsmanagerNew` for `secretsmanager.New`, both of the AWS SDK. -/
def NewStorageAws {Session σ : Type} (secretsmanagerNew : Session → SecretsManager σ)
    (awsSession : Option Session) (awsSecretPrefix : String) :
    Option (StorageAws σ) × Option Error :=
  match awsSession with
  | none => (none, some (.new "aws session cannot be nil"))
  | some sess =>
    if awsSecretPrefix = "" then (none, some (.new "aws secret prefix cannot be empty"))
    else
      let sm := secretsmanagerNew sess
      (some { keys := some Entries.empty, secretsManager := sm,
              secretPrefix := awsSecretPrefix }, none)

/-! ## A key-value double of the service -/

/-- A Secrets Manager that behaves as a key-value store over the identifiers it holds
(the collaborator interface of the specification, section 6): `GetSecretValue` and
`DeleteSecret` report `ResourceNotFoundException` exactly for identifiers that are not
held, `CreateSecret` reports `ResourceExistsException` exactly for identifiers that are
held, `UpdateSecret` overwrites a held identifier, and a successful `DeleteSecret` removes
the identifier.  The state of the service is its contents. -/
def kvSecretsManager : SecretsManager Entries where
  GetSecretValue := fun secretId remote =>
    match remote secretId with
    | some p => (.ok { SecretBinary := p }, remote)
    | none => (.error (.aws ErrCodeResourceNotFoundException "secret not found"), remote)
  CreateSecret := fun secretId dat remote =>
    match remote secretId with
    | some _ => (.error (.aws ErrCodeResourceExistsException "secret exists"), remote)
    | none => (.ok (), remote.set secretId dat)
  UpdateSecret := fun secretId dat remote =>
    match remote secretId with
    | some _ => (.ok (), remote.set secretId dat)
    | none => (.error (.aws ErrCodeResourceNotFoundException "secret not found"), remote)
  DeleteSecret := fun secretId remote =>
    match remote secretId with
    | some _ => (.ok (), remote.delete secretId)
    | none => (.error (.aws ErrCodeResourceNotFoundException "secret not found"), remote)

/-- A `StorageAws` over the key-value double with the given cache and prefix. -/
def kvStore (keys : GoMap) (secretPrefix : String) : StorageAws Entries :=
  { keys := keys, secretsManager := kvSecretsManager, secretPrefix := secretPrefix }

/-- A world in which the key-value double holds `remote` and no call has been issued. -/
def kvWorld (remote : Entries) : World Entries :=
  { remote := remote, calls := [] }

/-- Whether a remote call failed with an `awserr.Error` of the given code. -/
def failedWith {α : Type} (r : Except Error α) (code : String) : Bool :=
  match r with
  | .error err => err.hasCode code
  | .ok _ => false

/-- Whether a remote call returned a nil error. -/
def succeeded {α : Type} (r : Except Error α) : Bool :=
  match r with
  | .error _ => false
  | .ok _ => true

/-! ## A key-value service whose calls can be made to fail -/

/-- The state of a key-value service with injected failures: what it holds, and a script
with one item per coming call, `some err` to make that call fail with `err`. -/
structure Faulty where
  contents : Entries
  script : List (Option Error)

/-- The failure injected into the next call, if any, and the state with the script
advanced by one call. -/
def Faulty.next (r : Faulty) : Option Error × Faulty :=
  match r.script with
  | [] => (none, r)
  | f :: rest => (f, { r with script := rest })

/-- The key-value double with injected failures: a call for which the script holds an
error fails with that error and leaves the contents alone; every other call is the call
of `kvSecretsManager` on the contents. -/
def faultySecretsManager : SecretsManager Faulty where
  GetSecretValue := fun secretId r =>
    match r.next.1 with
    | some err => (.error err, r.next.2)
    | none =>
      ((kvSecretsManager.GetSecretValue secretId r.contents).1,
        { r.next.2 with contents := (kvSecretsManager.GetSecretValue secretId r.contents).2 })
  CreateSecret := fun secretId dat r =>
    match r.next.1 with
    | some err => (.error err, r.next.2)
    | none =>
      ((kvSecretsManager.CreateSecret secretId dat r.contents).1,
        { r.next.2 with
          contents := (kvSecretsManager.CreateSecret secretId dat r.contents).2 })
  UpdateSecret := fun secretId dat r =>
    match r.next.1 with
    | some err => (.error err, r.next.2)
    | none =>
      ((kvSecretsManager.UpdateSecret secretId dat r.contents).1,
        { r.next.2 with
          contents := (kvSecretsManager.UpdateSecret secretId dat r.contents).2 })
  DeleteSecret := fun secretId r =>
    match r.next.1 with
    | some err => (.error err, r.next.2)
    | none =>
      ((kvSecretsManager.DeleteSecret secretId r.contents).1,
        { r.next.2 with contents := (kvSecretsManager.DeleteSecret secretId r.contents).2 })

/-- A `StorageAws` over the double with injected failures. -/
def faultyStore (keys : GoMap) (secretPrefix : String) : StorageAws Faulty :=
  { keys := keys, secretsManager := faultySecretsManager, secretPrefix := secretPrefix }

/-- A world in which the double with injected failures holds `contents`, will follow
`script`, and no call has been issued. -/
def faultyWorld (contents : Entries) (script : List (Option Error)) : World Faulty :=
  { remote := { contents := contents, script := script }, calls := [] }

/-- An error of the service other than not-found and already-exists. -/
def accessDenied : Error := .aws "AccessDeniedException" "access denied"

/-! ## What it means for a service to be a key-value store -/

/-- The service `sm` is a key-value store whose calls may fail, seen through `contents`,
the payload it holds under each identifier: a `GetSecretValue` that succeeds returns the
payload held and never changes the contents; a `CreateSecret` or `UpdateSecret` that
succeeds stores the payload under the identifier, a `DeleteSecret` that succeeds removes
the identifier, and a call that fails changes nothing. -/
structure IsKeyValue {σ : Type} (sm : SecretsManager σ) (contents : σ → Entries) : Prop where
  get_ok : ∀ secretId r res, (sm.GetSecretValue secretId r).1 = .ok res →
    contents r secretId = some res.SecretBinary
  get_state : ∀ secretId r, contents (sm.GetSecretValue secretId r).2 = contents r
  create_ok : ∀ secretId dat r, succeeded (sm.CreateSecret secretId dat r).1 = true →
    contents (sm.CreateSecret secretId dat r).2 = (contents r).set secretId dat
  create_failed : ∀ secretId dat r, succeeded (sm.CreateSecret secretId dat r).1 = false →
    contents (sm.CreateSecret secretId dat r).2 = contents r
  update_ok : ∀ secretId dat r, succeeded (sm.UpdateSecret secretId dat r).1 = true →
    contents (sm.UpdateSecret secretId dat r).2 = (contents r).set secretId dat
  update_failed : ∀ secretId dat r, succeeded (sm.UpdateSecret secretId dat r).1 = false →
    contents (sm.UpdateSecret secretId dat r).2 = contents r
  delete_ok : ∀ secretId r, succeeded (sm.DeleteSecret secretId r).1 = true →
    contents (sm.DeleteSecret secretId r).2 = (contents r).delete secretId
  delete_failed : ∀ secretId r, succeeded (sm.DeleteSecret secretId r).1 = false →
    contents (sm.DeleteSecret secretId r).2 = contents r

/-- The `DeleteSecret` of the service only ever succeeds or reports
`ResourceNotFoundException`, the latter only for an identifier that is not held. -/
def DeleteNeverFails {σ : Type} (sm : SecretsManager σ) (contents : σ → Entries) : Prop :=
  ∀ secretId r, succeeded (sm.DeleteSecret secretId r).1 = true ∨
    (failedWith (sm.DeleteSecret secretId r).1 ErrCodeResourceNotFoundException = true ∧
      contents r secretId = none)

/-- The `CreateSecret` of the service fails, with `ResourceExistsException`, exactly for
an identifier that is held, and its `UpdateSecret` succeeds for an identifier that is
held. -/
def CreateUpdateExact {σ : Type} (sm : SecretsManager σ) (contents : σ → Entries) : Prop :=
  (∀ secretId dat r, contents r secretId ≠ none →
    failedWith (sm.CreateSecret secretId dat r).1 ErrCodeResourceExistsException = true) ∧
  (∀ secretId dat r, contents r secretId = none →
    succeeded (sm.CreateSecret secretId dat r).1 = true) ∧
  (∀ secretId dat r, contents r secretId ≠ none →
    succeeded (sm.UpdateSecret secretId dat r).1 = true)

/-! ## Sequences of calls -/

/-- A run of `Read` calls on one store, each with its name and with the world it finds;
the worlds are arbitrary, so the service may hold anything by then.  The result is the
store after the last call. -/
def StorageAws.readMany {σ : Type} (s : Option (StorageAws σ)) :
    List (String × World σ) → Option (StorageAws σ)
  | [] => s
  | (name, w) :: rest => StorageAws.readMany (StorageAws.Read s name w).2.1 rest

/-- One call on a store: the method and its arguments. -/
inductive Op where
  | Read (name : String)
  | Write (name : String) (dat : Bytes)
  | Delete (name : String)
  deriving DecidableEq, Repr

/-- The logical name an operation is about. -/
def Op.name : Op → String
  | .Read name => name
  | .Write name _ => name
  | .Delete name => name

/-- The store and the world after one call; the Go results of the call are dropped. -/
def StorageAws.step {σ : Type} (s : Option (StorageAws σ)) (w : World σ) (op : Op) :
    Option (StorageAws σ) × World σ :=
  match op with
  | .Read name => (StorageAws.Read s name w).2
  | .Write name dat => (StorageAws.Write s name dat w).2
  | .Delete name => (StorageAws.Delete s name w).2

/-- The store and the world after a sequence of calls, first call first.  Nothing else
touches the world between the calls: this store is the only writer of the service. -/
def StorageAws.run {σ : Type} (s : Option (StorageAws σ)) (w : World σ) :
    List Op → Option (StorageAws σ) × World σ
  | [] => (s, w)
  | op :: ops => StorageAws.run (StorageAws.step s w op).1 (StorageAws.step s w op).2 ops

/-- Cache coherence: whatever the cache holds under a name, the service holds under the
identifier `filepath.Join(prefix, name)`. -/
def Coherent {σ : Type} (contents : σ → Entries) (s : Option (StorageAws σ)) (w : World σ) :
    Prop :=
  ∀ st, s = some st → ∀ name p, st.keys.lookup name = some p →
    contents w.remote (filepathJoin [st.secretPrefix, name]) = some p

/-- The invariant behind cache coherence.  The store is non-nil, keeps the prefix `pre`
and the client `sm`, its cache is a non-nil map, and every name the cache holds is one of
`names` and is coherent with the service. -/
def CacheInv {σ : Type} (contents : σ → Entries) (names : List String) (pre : String)
    (sm : SecretsManager σ) (s : Option (StorageAws σ)) (w : World σ) : Prop :=
  ∃ st, s = some st ∧ st.secretPrefix = pre ∧ st.secretsManager = sm ∧ st.keys ≠ none ∧
    ∀ name p, st.keys.lookup name = some p →
      name ∈ names ∧ contents w.remote (filepathJoin [pre, name]) = some p

/-- No two of the names share a remote identifier under the prefix. -/
def NoAlias (pre : String) (names : List String) : Prop :=
  ∀ a ∈ names, ∀ b ∈ names, filepathJoin [pre, a] = filepathJoin [pre, b] → a = b

/-! ## The loop of filepath.Clean terminates within its bound -/

/-- A real path element copied by `Clean` has at least one character. -/
theorem clean_elem_pos (path : List Char) (r : Nat) (hr : r < path.length)
    (hsep : isPathSeparator (path.getD r '/') = false) :
    0 < ((path.drop r).takeWhile (fun c => !isPathSeparator c)).length := by
  have hd : path.drop r = path.getD r '/' :: path.drop (r + 1) := by
    rw [List.getD_eq_getElem _ _ hr]
    exact List.drop_eq_getElem_cons hr
  rw [hd, List.takeWhile_cons]
  simp only [hsep, Bool.not_false, if_true, List.length_cons]
  omega

/-- The bound on the iterations of `cleanLoop` is never what stops it: with any two
bounds of at least `path.length - r` the loop gives the same buffer, so it ends by
`r < n` failing, as the Go loop does. -/
theorem cleanLoop_fuel (path : List Char) (rooted : Bool) :
    ∀ (f1 f2 r : Nat) (out : List Char) (dotdot : Nat),
      path.length - r ≤ f1 → path.length - r ≤ f2 →
      cleanLoop path rooted f1 r out dotdot = cleanLoop path rooted f2 r out dotdot := by
  intro f1
  induction f1 with
  | zero =>
    intro f2 r out dotdot h1 _
    cases f2 with
    | zero => rfl
    | succ f2 =>
      have : ¬ r < path.length := by omega
      simp [cleanLoop, this]
  | succ f1 ih =>
    intro f2 r out dotdot h1 h2
    cases f2 with
    | zero =>
      have : ¬ r < path.length := by omega
      simp [cleanLoop, this]
    | succ f2 =>
      unfold cleanLoop
      by_cases hr : r < path.length
      · simp only [hr, if_true]
        split_ifs with c1 c2 c3 c4 c5
        · exact ih _ _ _ _ (by omega) (by omega)
        · exact ih _ _ _ _ (by omega) (by omega)
        · exact ih _ _ _ _ (by omega) (by omega)
        · exact ih _ _ _ _ (by omega) (by omega)
        · exact ih _ _ _ _ (by omega) (by omega)
        all_goals
          have hpos := clean_elem_pos path r hr (by simpa using c1)
          exact ih _ _ _ _ (by omega) (by omega)
      · simp [hr]

/-! ## Basic facts about maps -/

theorem entries_set_same (m : Entries) (name : String) (dat : Bytes) :
    m.set name dat name = some dat := by
  simp [Entries.set]

theorem entries_set_other (m : Entries) (name k : String) (dat : Bytes) (h : k ≠ name) :
    m.set name dat k = m k := by
  simp [Entries.set, h]

theorem entries_delete_same (m : Entries) (name : String) :
    m.delete name name = none := by
  simp [Entries.delete]

theorem entries_delete_other (m : Entries) (name k : String) (h : k ≠ name) :
    m.delete name k = m k := by
  simp [Entries.delete, h]

/-! ## StorageMemory -/

/-- C1. On a non-nil `StorageMemory` in any state (its map may still be nil), `Write`
returns a nil error and leaves a non-nil store, and `Read` of the same name directly
afterwards returns exactly the written payload with a nil error. -/
theorem storageMemory_read_after_write (s : StorageMemory) (name : String) (dat : Bytes) :
    (StorageMemory.Write (some s) name dat).1 = none ∧
    (StorageMemory.Write (some s) name dat).2.isSome = true ∧
    (StorageMemory.Read (StorageMemory.Write (some s) name dat).2 name).1 = (dat, none) := by
  cases hk : s.keys <;> simp [StorageMemory.Write, StorageMemory.Read, hk, Entries.set]

/-- C3. On a non-nil `StorageMemory` in any state, `Delete` returns a nil error and `Read`
of the same name directly afterwards returns the nil payload with a nil error. -/
theorem storageMemory_read_after_delete (s : StorageMemory) (name : String) :
    (StorageMemory.Delete (some s) name).1 = none ∧
    (StorageMemory.Delete (some s) name).2.isSome = true ∧
    (StorageMemory.Read (StorageMemory.Delete (some s) name).2 name).1 = (none, none) := by
  cases hk : s.keys <;>
    simp [StorageMemory.Delete, StorageMemory.Read, hk, Entries.delete, Entries.empty]

/-! ## The nil store -/

/-- C5. On a nil `*StorageMemory` and on a nil `*StorageAws`, `Read` returns the nil
payload with a nil error and `Write` and `Delete` return a nil error; the receiver stays
nil and, for `StorageAws`, the world is untouched: no remote call is issued and the
service state is the same. -/
theorem nil_store_noop {σ : Type} (name : String) (dat : Bytes) (w : World σ) :
    StorageMemory.Read none name = ((none, none), none) ∧
    StorageMemory.Write none name dat = (none, none) ∧
    StorageMemory.Delete none name = (none, none) ∧
    StorageAws.Read none name w = ((none, none), none, w) ∧
    StorageAws.Write none name dat w = (none, none, w) ∧
    StorageAws.Delete none name w = (none, none, w) :=
  ⟨rfl, rfl, rfl, rfl, rfl, rfl⟩

/-! ## NewStorageAws -/

/-- C6. `NewStorageAws` returns a non-nil error together with a nil store exactly when
the session is nil or the prefix is empty; in every case it returns either that, or a nil
error with a store whose cache is the empty non-nil map, whose client is the one made from
the session and whose prefix is the argument. -/
theorem NewStorageAws_validation {Session σ : Type}
    (secretsmanagerNew : Session → SecretsManager σ) (awsSession : Option Session)
    (awsSecretPrefix : String) :
    (((NewStorageAws secretsmanagerNew awsSession awsSecretPrefix).2 ≠ none ∧
        (NewStorageAws secretsmanagerNew awsSession awsSecretPrefix).1.isNone = true) ↔
      (awsSession = none ∨ awsSecretPrefix = "")) ∧
    (((awsSession = none ∨ awsSecretPrefix = "") ∧
        (NewStorageAws secretsmanagerNew awsSession awsSecretPrefix).2 ≠ none ∧
        (NewStorageAws secretsmanagerNew awsSession awsSecretPrefix).1.isNone = true) ∨
      (∃ sess st, awsSession = some sess ∧ awsSecretPrefix ≠ "" ∧
        NewStorageAws secretsmanagerNew awsSession awsSecretPrefix = (some st, none) ∧
        st.keys = some Entries.empty ∧ st.secretPrefix = awsSecretPrefix ∧
        st.secretsManager = secretsmanagerNew sess)) := by
  cases awsSession with
  | none => simp [NewStorageAws]
  | some sess =>
    by_cases hp : awsSecretPrefix = ""
    · simp [NewStorageAws, hp]
    · simp [NewStorageAws, hp]

/-! ## StorageAws.Write -/

/-- C7. The calls `Write` adds to the log on a non-nil store: first one `CreateSecret`
with the identifier `filepath.Join(prefix, name)` and the payload, then one `UpdateSecret`
with the same identifier and payload exactly when the create failed with the code
`ResourceExistsException`, and nothing else. -/
theorem storageAws_write_call_sequence {σ : Type} (s : StorageAws σ) (name : String)
    (dat : Bytes) (w : World σ) :
    (StorageAws.Write (some s) name dat w).2.2.calls =
      w.calls ++
        Call.CreateSecret (filepathJoin [s.secretPrefix, name]) dat ::
          (if failedWith
                (s.secretsManager.CreateSecret (filepathJoin [s.secretPrefix, name]) dat
                  w.remote).1
                ErrCodeResourceExistsException = true
            then [Call.UpdateSecret (filepathJoin [s.secretPrefix, name]) dat]
            else []) := by
  unfold StorageAws.Write
  simp only
  cases hc : (s.secretsManager.CreateSecret (filepathJoin [s.secretPrefix, name]) dat
      w.remote).1 with
  | ok v => simp [failedWith]
  | error err =>
    by_cases hx : err.hasCode ErrCodeResourceExistsException = true
    · simp only [failedWith, hx]
      cases hu : (s.secretsManager.UpdateSecret (filepathJoin [s.secretPrefix, name]) dat
        (s.secretsManager.CreateSecret (filepathJoin [s.secretPrefix, name]) dat
          w.remote).2).1 <;> simp
    · simp [failedWith, hx]

/-- The three ways `Write` can end on a non-nil store, by the results of its remote calls:
a wrapped create error, the bare update error, or a nil error with the entry stored. -/
theorem storageAws_write_cases {σ : Type} (s : StorageAws σ) (name : String) (dat : Bytes)
    (w : World σ) :
    (∃ err, (s.secretsManager.CreateSecret (filepathJoin [s.secretPrefix, name]) dat
          w.remote).1 = .error err ∧
        err.hasCode ErrCodeResourceExistsException = false ∧
        (StorageAws.Write (some s) name dat w).1 =
          some (withMessagef err "Put secret value" (filepathJoin [s.secretPrefix, name])) ∧
        (StorageAws.Write (some s) name dat w).2.1 = some s) ∨
    (∃ err uerr, (s.secretsManager.CreateSecret (filepathJoin [s.secretPrefix, name]) dat
          w.remote).1 = .error err ∧
        err.hasCode ErrCodeResourceExistsException = true ∧
        (s.secretsManager.UpdateSecret (filepathJoin [s.secretPrefix, name]) dat
          (s.secretsManager.CreateSecret (filepathJoin [s.secretPrefix, name]) dat
            w.remote).2).1 = .error uerr ∧
        (StorageAws.Write (some s) name dat w).1 = some uerr ∧
        (StorageAws.Write (some s) name dat w).2.1 = some s) ∨
    ((succeeded (s.secretsManager.CreateSecret (filepathJoin [s.secretPrefix, name]) dat
          w.remote).1 = true ∨
        (failedWith (s.secretsManager.CreateSecret (filepathJoin [s.secretPrefix, name]) dat
            w.remote).1 ErrCodeResourceExistsException = true ∧
          succeeded (s.secretsManager.UpdateSecret (filepathJoin [s.secretPrefix, name]) dat
            (s.secretsManager.CreateSecret (filepathJoin [s.secretPrefix, name]) dat
              w.remote).2).1 = true)) ∧
      (StorageAws.Write (some s) name dat w).1 = none ∧
      (StorageAws.Write (some s) name dat w).2.1 =
        some { s with keys := some ((s.keys.getD Entries.empty).set name dat) }) := by
  unfold StorageAws.Write
  simp only
  cases hc : (s.secretsManager.CreateSecret (filepathJoin [s.secretPrefix, name]) dat
      w.remote).1 with
  | ok v =>
    right; right
    cases hk : s.keys <;> simp [succeeded]
  | error err =>
    by_cases hx : err.hasCode ErrCodeResourceExistsException = true
    · cases hu : (s.secretsManager.UpdateSecret (filepathJoin [s.secretPrefix, name]) dat
        (s.secretsManager.CreateSecret (filepathJoin [s.secretPrefix, name]) dat
          w.remote).2).1 with
      | ok v =>
        right; right
        cases hk : s.keys <;> simp [succeeded, failedWith, hx, hu]
      | error uerr =>
        right; left
        exact ⟨err, uerr, rfl, hx, rfl, by simp [hx, hu], by simp [hx, hu]⟩
    · left
      have hx' : err.hasCode ErrCodeResourceExistsException = false := by simpa using hx
      exact ⟨err, rfl, hx', by simp [hx'], by simp [hx']⟩

/-- C8. `Write` on a non-nil store returns a nil error exactly when `CreateSecret`
succeeded, or `CreateSecret` failed with the code `ResourceExistsException` and the
`UpdateSecret` that follows succeeded; and whenever it returns a nil error the store is
still non-nil, its cache is a non-nil map that holds the payload under the name, and the
entry of every other name is as before. -/
theorem storageAws_write_outcome {σ : Type} (s : StorageAws σ) (name : String) (dat : Bytes)
    (w : World σ) :
    ((StorageAws.Write (some s) name dat w).1 = none ↔
      (succeeded (s.secretsManager.CreateSecret (filepathJoin [s.secretPrefix, name]) dat
          w.remote).1 = true ∨
        (failedWith (s.secretsManager.CreateSecret (filepathJoin [s.secretPrefix, name]) dat
            w.remote).1 ErrCodeResourceExistsException = true ∧
          succeeded (s.secretsManager.UpdateSecret (filepathJoin [s.secretPrefix, name]) dat
            (s.secretsManager.CreateSecret (filepathJoin [s.secretPrefix, name]) dat
              w.remote).2).1 = true))) ∧
    ((StorageAws.Write (some s) name dat w).1 = none →
      ∃ st, (StorageAws.Write (some s) name dat w).2.1 = some st ∧
        st.keys ≠ none ∧
        st.keys.lookup name = some dat ∧
        ∀ k, k ≠ name → st.keys.lookup k = s.keys.lookup k) := by
  rcases storageAws_write_cases s name dat w with
    ⟨err, hc, hx, he, _⟩ | ⟨err, uerr, hc, hx, hu, he, _⟩ | ⟨hok, he, hs⟩
  · simp [he, hc, succeeded, failedWith, hx]
  · simp [he, hc, hu, succeeded, failedWith, hx]
  · refine ⟨by simp [he, hok], fun _ => ⟨_, hs, by simp, ?_, ?_⟩⟩
    · simp [GoMap.lookup, Entries.set]
    · intro k hk
      cases hkeys : s.keys <;> simp [GoMap.lookup, Entries.set, hk, Entries.empty]

/-- C8, at a concrete input: over the key-value double that already holds `app/k`, the
create fails with `ResourceExistsException`, the update succeeds, `Write` returns nil, and
the cache then holds the new payload under `k` and keeps the entry of `j`. -/
theorem storageAws_write_outcome_witness :
    (StorageAws.Write
        (some (kvStore (some (Entries.empty.set "j" (some [7]))) "app")) "k" (some [1])
        (kvWorld (Entries.empty.set "app/k" (some [0])))).1 = none ∧
    ∃ st, (StorageAws.Write
        (some (kvStore (some (Entries.empty.set "j" (some [7]))) "app")) "k" (some [1])
        (kvWorld (Entries.empty.set "app/k" (some [0])))).2.1 = some st ∧
      st.keys ≠ none ∧
      st.keys.lookup "k" = some (some [1]) ∧
      ∀ k, k ≠ "k" → st.keys.lookup k =
        (kvStore (some (Entries.empty.set "j" (some [7]))) "app").keys.lookup k :=
  ⟨by decide,
    (storageAws_write_outcome
      (kvStore (some (Entries.empty.set "j" (some [7]))) "app") "k" (some [1])
      (kvWorld (Entries.empty.set "app/k" (some [0])))).2 (by decide)⟩

/-! ## StorageAws.Read -/

/-- `Read` on a non-nil store whose cache holds the name: the cached payload, a nil
error, and the world as it was. -/
theorem storageAws_read_hit {σ : Type} (s : StorageAws σ) (name : String) (w : World σ)
    (dat : Bytes) (h : s.keys.lookup name = some dat) :
    StorageAws.Read (some s) name w = ((dat, none), some s, w) := by
  obtain ⟨keys, sm, pre⟩ := s
  cases keys with
  | none => simp [GoMap.lookup] at h
  | some e =>
    simp only [GoMap.lookup] at h
    simp [StorageAws.Read, h]

/-- C2. On a non-nil `StorageAws`, whatever the remote service does: if `Write` returns
a nil error, then `Read` of the same name directly afterwards (on the store and the world
that `Write` left) returns exactly the written payload with a nil error and leaves the
world as it was, so its call log gains nothing. -/
theorem storageAws_read_after_write {σ : Type} (s : StorageAws σ) (name : String)
    (dat : Bytes) (w : World σ) (h : (StorageAws.Write (some s) name dat w).1 = none) :
    (StorageAws.Read (StorageAws.Write (some s) name dat w).2.1 name
        (StorageAws.Write (some s) name dat w).2.2).1 = (dat, none) ∧
    (StorageAws.Read (StorageAws.Write (some s) name dat w).2.1 name
        (StorageAws.Write (some s) name dat w).2.2).2.2 =
      (StorageAws.Write (some s) name dat w).2.2 ∧
    (StorageAws.Read (StorageAws.Write (some s) name dat w).2.1 name
        (StorageAws.Write (some s) name dat w).2.2).2.2.calls =
      (StorageAws.Write (some s) name dat w).2.2.calls := by
  rcases storageAws_write_cases s name dat w with
    ⟨err, _, _, he, _⟩ | ⟨err, uerr, _, _, _, he, _⟩ | ⟨_, _, hs⟩
  · rw [he] at h; cases h
  · rw [he] at h; cases h
  · rw [hs, storageAws_read_hit _ name _ dat (by simp [GoMap.lookup, Entries.set])]
    exact ⟨rfl, rfl, rfl⟩

/-- C2, at a concrete input: a store with a nil cache over the empty key-value double
writes `k` and reads it back without a further call. -/
theorem storageAws_read_after_write_witness :
    (StorageAws.Write (some (kvStore none "app")) "k" (some [1, 2])
        (kvWorld Entries.empty)).1 = none ∧
    (StorageAws.Read
        (StorageAws.Write (some (kvStore none "app")) "k" (some [1, 2])
          (kvWorld Entries.empty)).2.1 "k"
        (StorageAws.Write (some (kvStore none "app")) "k" (some [1, 2])
          (kvWorld Entries.empty)).2.2).1 = (some [1, 2], none) ∧
    (StorageAws.Read
        (StorageAws.Write (some (kvStore none "app")) "k" (some [1, 2])
          (kvWorld Entries.empty)).2.1 "k"
        (StorageAws.Write (some (kvStore none "app")) "k" (some [1, 2])
          (kvWorld Entries.empty)).2.2).2.2 =
      (StorageAws.Write (some (kvStore none "app")) "k" (some [1, 2])
        (kvWorld Entries.empty)).2.2 ∧
    (StorageAws.Read
        (StorageAws.Write (some (kvStore none "app")) "k" (some [1, 2])
          (kvWorld Entries.empty)).2.1 "k"
        (StorageAws.Write (some (kvStore none "app")) "k" (some [1, 2])
          (kvWorld Entries.empty)).2.2).2.2.calls =
      (StorageAws.Write (some (kvStore none "app")) "k" (some [1, 2])
        (kvWorld Entries.empty)).2.2.calls :=
  ⟨by decide,
    storageAws_read_after_write (kvStore none "app") "k" (some [1, 2])
      (kvWorld Entries.empty) (by decide)⟩

/-- `Read` on a non-nil store whose cache does not hold the name issues exactly one
`GetSecretValue` for `filepath.Join(prefix, name)`. -/
theorem storageAws_read_miss_calls {σ : Type} (s : StorageAws σ) (name : String)
    (w : World σ) (h : s.keys.lookup name = none) :
    (StorageAws.Read (some s) name w).2.2.calls =
      w.calls ++ [Call.GetSecretValue (filepathJoin [s.secretPrefix, name])] := by
  obtain ⟨keys, sm, pre⟩ := s
  have hk : (match keys with | none => Entries.empty | some e => e) name = none := by
    cases keys <;> simp_all [GoMap.lookup, Entries.empty]
  simp only [StorageAws.Read, hk]
  cases hg : (sm.GetSecretValue (filepathJoin [pre, name]) w.remote).1 with
  | ok res => simp
  | error err => by_cases hx : err.hasCode ErrCodeResourceNotFoundException = true <;> simp [hx]

/-- `Read` on a non-nil store whose cache does not hold the name, when `GetSecretValue`
returns a secret: the fetched payload is returned and stored under the name. -/
theorem storageAws_read_miss_ok {σ : Type} (s : StorageAws σ) (name : String)
    (w : World σ) (res : GetSecretValueOutput) (h : s.keys.lookup name = none)
    (hg : (s.secretsManager.GetSecretValue (filepathJoin [s.secretPrefix, name])
      w.remote).1 = .ok res) :
    (StorageAws.Read (some s) name w).1 = (res.SecretBinary, none) ∧
    (StorageAws.Read (some s) name w).2.1 =
      some { s with keys := some ((s.keys.getD Entries.empty).set name res.SecretBinary) } := by
  obtain ⟨keys, sm, pre⟩ := s
  have hk : (match keys with | none => Entries.empty | some e => e) name = none := by
    cases keys <;> simp_all [GoMap.lookup, Entries.empty]
  simp only at hg
  simp only [StorageAws.Read, hk, hg]
  cases keys <;> simp

/-- C9. On a non-nil `StorageAws` whose cache has no entry for the name, if
`GetSecretValue` fails with the code `ResourceNotFoundException`, then `Read` returns the
nil payload with a nil error, the store stays non-nil, and afterwards the cache has the
same entry as before under every name, so none under the name read. -/
theorem storageAws_read_not_found {σ : Type} (s : StorageAws σ) (name : String)
    (w : World σ) (h : s.keys.lookup name = none)
    (hg : failedWith
      (s.secretsManager.GetSecretValue (filepathJoin [s.secretPrefix, name]) w.remote).1
      ErrCodeResourceNotFoundException = true) :
    (StorageAws.Read (some s) name w).1 = (none, none) ∧
    ∃ st, (StorageAws.Read (some s) name w).2.1 = some st ∧
      st.keys.lookup name = none ∧
      ∀ k, st.keys.lookup k = s.keys.lookup k := by
  obtain ⟨keys, sm, pre⟩ := s
  have hk : (match keys with | none => Entries.empty | some e => e) name = none := by
    cases keys <;> simp_all [GoMap.lookup, Entries.empty]
  simp only at hg
  cases hr : (sm.GetSecretValue (filepathJoin [pre, name]) w.remote).1 with
  | ok res => simp [hr, failedWith] at hg
  | error err =>
    simp only [hr, failedWith] at hg
    simp only [StorageAws.Read, hk, hr, hg]
    cases keys <;> simp_all [GoMap.lookup, Entries.empty]

/-- C9, at a concrete input: a store with an empty cache over the empty key-value
double reads `k`. -/
theorem storageAws_read_not_found_witness :
    (kvStore (some Entries.empty) "app").keys.lookup "k" = none ∧
    failedWith
      ((kvStore (some Entries.empty) "app").secretsManager.GetSecretValue
        (filepathJoin [(kvStore (some Entries.empty) "app").secretPrefix, "k"])
        (kvWorld Entries.empty).remote).1
      ErrCodeResourceNotFoundException = true ∧
    (StorageAws.Read (some (kvStore (some Entries.empty) "app")) "k"
      (kvWorld Entries.empty)).1 = (none, none) ∧
    ∃ st, (StorageAws.Read (some (kvStore (some Entries.empty) "app")) "k"
        (kvWorld Entries.empty)).2.1 = some st ∧
      st.keys.lookup "k" = none ∧
      ∀ k, st.keys.lookup k = (kvStore (some Entries.empty) "app").keys.lookup k :=
  ⟨by decide, by decide,
    storageAws_read_not_found (kvStore (some Entries.empty) "app") "k"
      (kvWorld Entries.empty) (by decide) (by decide)⟩

/-- C10, as stated, fails: over the empty key-value double a store with an empty cache
reads `k`; the first `Read` issues a `GetSecretValue` and returns a nil error (the
service reports `ResourceNotFoundException`, nothing is cached), and the `Read` that
follows issues a second `GetSecretValue`. -/
theorem storageAws_read_twice_refetches :
    (StorageAws.Read (some (kvStore (some Entries.empty) "app")) "k"
      (kvWorld Entries.empty)).1.2 = none ∧
    (StorageAws.Read (some (kvStore (some Entries.empty) "app")) "k"
      (kvWorld Entries.empty)).2.2.calls = [Call.GetSecretValue "app/k"] ∧
    (StorageAws.Read
      (StorageAws.Read (some (kvStore (some Entries.empty) "app")) "k"
        (kvWorld Entries.empty)).2.1 "k"
      (StorageAws.Read (some (kvStore (some Entries.empty) "app")) "k"
        (kvWorld Entries.empty)).2.2).2.2.calls =
      [Call.GetSecretValue "app/k", Call.GetSecretValue "app/k"] := by
  decide

/-- C10, amended. On a non-nil `StorageAws`, if `Read` issued a remote call, returned a
nil error, and its `GetSecretValue` did not fail with the code
`ResourceNotFoundException`, then the `Read` of the same name that follows directly
leaves the world as it was: it issues no remote call. -/
theorem storageAws_read_twice_cached {σ : Type} (s : StorageAws σ) (name : String)
    (w : World σ)
    (hfetch : (StorageAws.Read (some s) name w).2.2.calls ≠ w.calls)
    (herr : (StorageAws.Read (some s) name w).1.2 = none)
    (hfound : failedWith
      (s.secretsManager.GetSecretValue (filepathJoin [s.secretPrefix, name]) w.remote).1
      ErrCodeResourceNotFoundException = false) :
    (StorageAws.Read (StorageAws.Read (some s) name w).2.1 name
        (StorageAws.Read (some s) name w).2.2).2.2 =
      (StorageAws.Read (some s) name w).2.2 ∧
    (StorageAws.Read (StorageAws.Read (some s) name w).2.1 name
        (StorageAws.Read (some s) name w).2.2).2.2.calls =
      (StorageAws.Read (some s) name w).2.2.calls := by
  cases hl : s.keys.lookup name with
  | some dat =>
    rw [storageAws_read_hit s name w dat hl] at hfetch
    exact absurd rfl hfetch
  | none =>
    cases hr : (s.secretsManager.GetSecretValue (filepathJoin [s.secretPrefix, name])
        w.remote).1 with
    | ok res =>
      obtain ⟨_, hs⟩ := storageAws_read_miss_ok s name w res hl hr
      rw [hs, storageAws_read_hit _ name _ res.SecretBinary
        (by simp [GoMap.lookup, Entries.set])]
      exact ⟨rfl, rfl⟩
    | error err =>
      exfalso
      obtain ⟨keys, sm, pre⟩ := s
      have hk : (match keys with | none => Entries.empty | some e => e) name = none := by
        cases keys <;> simp_all [GoMap.lookup, Entries.empty]
      simp only at hr
      simp only [hr, failedWith] at hfound
      simp [StorageAws.Read, hk, hr, hfound, withMessagef] at herr

/-- C10 amended, at a concrete input: the key-value double holds `app/k`; a store with
an empty cache reads `k` twice and the second `Read` adds no call. -/
theorem storageAws_read_twice_cached_witness :
    (StorageAws.Read (some (kvStore (some Entries.empty) "app")) "k"
      (kvWorld (Entries.empty.set "app/k" (some [9])))).2.2.calls ≠
      (kvWorld (Entries.empty.set "app/k" (some [9]))).calls ∧
    (StorageAws.Read (some (kvStore (some Entries.empty) "app")) "k"
      (kvWorld (Entries.empty.set "app/k" (some [9])))).1.2 = none ∧
    (StorageAws.Read
        (StorageAws.Read (some (kvStore (some Entries.empty) "app")) "k"
          (kvWorld (Entries.empty.set "app/k" (some [9])))).2.1 "k"
        (StorageAws.Read (some (kvStore (some Entries.empty) "app")) "k"
          (kvWorld (Entries.empty.set "app/k" (some [9])))).2.2).2.2.calls =
      (StorageAws.Read (some (kvStore (some Entries.empty) "app")) "k"
        (kvWorld (Entries.empty.set "app/k" (some [9])))).2.2.calls :=
  ⟨by decide, by decide,
    (storageAws_read_twice_cached (kvStore (some Entries.empty) "app") "k"
      (kvWorld (Entries.empty.set "app/k" (some [9]))) (by decide) (by decide)
      (by decide)).2⟩

/-! ## StorageAws.Delete -/

/-- Over the key-value double, a store whose cache is a non-nil map: `Delete` returns a
nil error and the `Read` of the same name that follows returns the nil payload with a nil
error, whatever the cache and the service held. -/
theorem storageAws_kv_read_after_delete (e : Entries) (secretPrefix name : String)
    (w : World Entries) :
    (StorageAws.Delete (some (kvStore (some e) secretPrefix)) name w).1 = none ∧
    (StorageAws.Read (StorageAws.Delete (some (kvStore (some e) secretPrefix)) name w).2.1
      name (StorageAws.Delete (some (kvStore (some e) secretPrefix)) name w).2.2).1 =
      (none, none) := by
  cases hr : w.remote (filepathJoin [secretPrefix, name]) with
  | none =>
    simp [StorageAws.Delete, StorageAws.Read, kvStore, kvSecretsManager, hr, Error.hasCode,
      Entries.delete]
  | some p =>
    simp [StorageAws.Delete, StorageAws.Read, kvStore, kvSecretsManager, hr, Error.hasCode,
      Entries.delete]

/-- C4 fails on a store whose cache is the nil map.  The key-value double holds `app/k`;
`Delete` of `k` returns a nil error without issuing any call and leaves the service as it
was, and the `Read` of `k` that follows fetches and returns the payload. -/
theorem storageAws_delete_nil_cache_skips_remote :
    (StorageAws.Delete (some (kvStore none "app")) "k"
      (kvWorld (Entries.empty.set "app/k" (some [1])))).1 = none ∧
    (StorageAws.Delete (some (kvStore none "app")) "k"
      (kvWorld (Entries.empty.set "app/k" (some [1])))).2.2.calls = [] ∧
    (StorageAws.Delete (some (kvStore none "app")) "k"
      (kvWorld (Entries.empty.set "app/k" (some [1])))).2.2.remote "app/k" =
      some (some [1]) ∧
    (StorageAws.Read
      (StorageAws.Delete (some (kvStore none "app")) "k"
        (kvWorld (Entries.empty.set "app/k" (some [1])))).2.1 "k"
      (StorageAws.Delete (some (kvStore none "app")) "k"
        (kvWorld (Entries.empty.set "app/k" (some [1])))).2.2).1 = (some [1], none) ∧
    (StorageAws.Write (some (kvStore none "app")) "k" (some [1])
      (kvWorld Entries.empty)).2.2.calls = [Call.CreateSecret "app/k" (some [1])] := by
  decide

/-- C17 fails on a store whose cache is the nil map: whatever the client, the prefix,
the name and the world, `Delete` returns a nil error with the store and the world as they
were, so the call log gains no `DeleteSecret`; so it is for the store with prefix `app`
over the key-value double that holds `app/k`. -/
theorem storageAws_delete_nil_cache_no_call {σ : Type} (s : StorageAws σ) (name : String)
    (w : World σ) :
    StorageAws.Delete (some { s with keys := none }) name w =
      (none, some { s with keys := none }, w) ∧
    (StorageAws.Delete (some { s with keys := none }) name w).2.2.calls = w.calls ∧
    (StorageAws.Delete (some (kvStore none "app")) "k"
      (kvWorld (Entries.empty.set "app/k" (some [1])))).2.2.calls = [] := by
  simp [StorageAws.Delete, kvWorld, kvStore]

/-- The outcomes of `Delete` on a store whose cache is a non-nil map: the entry is
removed, one `DeleteSecret` is logged, and the error is nil unless the call failed with
something other than `ResourceNotFoundException`, which is returned wrapped. -/
theorem storageAws_delete_cases {σ : Type} (s : StorageAws σ) (name : String) (w : World σ)
    (e : Entries) (hk : s.keys = some e) :
    (StorageAws.Delete (some s) name w).2.1 = some { s with keys := some (e.delete name) } ∧
    (StorageAws.Delete (some s) name w).2.2 =
      { remote := (s.secretsManager.DeleteSecret (filepathJoin [s.secretPrefix, name])
          w.remote).2,
        calls := w.calls ++ [Call.DeleteSecret (filepathJoin [s.secretPrefix, name])] } ∧
    (StorageAws.Delete (some s) name w).1 =
      match (s.secretsManager.DeleteSecret (filepathJoin [s.secretPrefix, name])
          w.remote).1 with
      | .ok _ => none
      | .error err =>
        if err.hasCode ErrCodeResourceNotFoundException = true then none
        else some (withMessagef err "Delete secret value"
          (filepathJoin [s.secretPrefix, name])) := by
  obtain ⟨keys, sm, pre⟩ := s
  simp only at hk
  subst hk
  simp only [StorageAws.Delete]
  cases hr : (sm.DeleteSecret (filepathJoin [pre, name]) w.remote).1 with
  | ok v => simp
  | error err =>
    by_cases hx : err.hasCode ErrCodeResourceNotFoundException = true <;> simp [hx]

/-- C12. On a `StorageAws` whose cache is a non-nil map, `Delete` returns a non-nil error
exactly when `DeleteSecret` failed and not with the code `ResourceNotFoundException`; a
success and a `ResourceNotFoundException` failure both give a nil error; and a failure
whose error is not an `awserr.Error` is always returned, wrapped. -/
theorem storageAws_delete_error_iff {σ : Type} (s : StorageAws σ) (name : String)
    (w : World σ) (e : Entries) (hk : s.keys = some e) :
    ((StorageAws.Delete (some s) name w).1 ≠ none ↔
      (succeeded (s.secretsManager.DeleteSecret (filepathJoin [s.secretPrefix, name])
          w.remote).1 = false ∧
        failedWith (s.secretsManager.DeleteSecret (filepathJoin [s.secretPrefix, name])
          w.remote).1 ErrCodeResourceNotFoundException = false)) ∧
    (succeeded (s.secretsManager.DeleteSecret (filepathJoin [s.secretPrefix, name])
        w.remote).1 = true → (StorageAws.Delete (some s) name w).1 = none) ∧
    (failedWith (s.secretsManager.DeleteSecret (filepathJoin [s.secretPrefix, name])
        w.remote).1 ErrCodeResourceNotFoundException = true →
      (StorageAws.Delete (some s) name w).1 = none) ∧
    (∀ err, (s.secretsManager.DeleteSecret (filepathJoin [s.secretPrefix, name])
        w.remote).1 = .error err → (∀ code message, err ≠ .aws code message) →
      (StorageAws.Delete (some s) name w).1 =
        some (withMessagef err "Delete secret value"
          (filepathJoin [s.secretPrefix, name]))) := by
  obtain ⟨_, _, he⟩ := storageAws_delete_cases s name w e hk
  rw [he]
  cases hr : (s.secretsManager.DeleteSecret (filepathJoin [s.secretPrefix, name])
      w.remote).1 with
  | ok v => simp [succeeded, failedWith]
  | error err =>
    by_cases hx : err.hasCode ErrCodeResourceNotFoundException = true
    · refine ⟨by simp [succeeded, failedWith, hx], by simp [succeeded], by simp [hx], ?_⟩
      intro err' h' hna
      cases h'
      cases err <;> simp_all [Error.hasCode]
    · refine ⟨by simp [succeeded, failedWith, hx], by simp [succeeded],
        by simp [failedWith, hx], ?_⟩
      intro err' h' _
      cases h'
      simp [hx]

/-- C12, at a concrete input: the service fails the `DeleteSecret` with a plain error
that has no code, and `Delete` returns it wrapped. -/
theorem storageAws_delete_error_iff_witness :
    (StorageAws.Delete (some (faultyStore (some Entries.empty) "app")) "k"
      (faultyWorld Entries.empty [some (.new "connection reset")])).1 =
      some (withMessagef (.new "connection reset") "Delete secret value" "app/k") :=
  (storageAws_delete_error_iff (faultyStore (some Entries.empty) "app") "k"
    (faultyWorld Entries.empty [some (.new "connection reset")]) Entries.empty rfl).2.2.2
    (.new "connection reset") rfl (by intro code message h; cases h)

/-- C18. On a `StorageAws` whose cache is a non-nil map, after `Delete` the store is
non-nil, its cache is a non-nil map without an entry for the name, and the entry of every
other name is as before; this is so whatever `DeleteSecret` returned, hence also when
`Delete` returns an error. -/
theorem storageAws_delete_cache_effect {σ : Type} (s : StorageAws σ) (name : String)
    (w : World σ) (e : Entries) (hk : s.keys = some e) :
    ∃ st, (StorageAws.Delete (some s) name w).2.1 = some st ∧
      st.keys ≠ none ∧
      st.keys.lookup name = none ∧
      ∀ k, k ≠ name → st.keys.lookup k = s.keys.lookup k := by
  obtain ⟨hs, _, _⟩ := storageAws_delete_cases s name w e hk
  refine ⟨_, hs, by simp, by simp [GoMap.lookup, Entries.delete], ?_⟩
  intro k hne
  simp [GoMap.lookup, Entries.delete, hne, hk]

/-- C18, at a concrete input: the cache holds `k` and `j`, the `DeleteSecret` fails with
an error that `Delete` returns, and still `k` is gone from the cache and `j` is kept. -/
theorem storageAws_delete_cache_effect_witness :
    (StorageAws.Delete
      (some (faultyStore (some ((Entries.empty.set "j" (some [7])).set "k" (some [1]))) "app"))
      "k" (faultyWorld Entries.empty [some accessDenied])).1 ≠ none ∧
    ∃ st, (StorageAws.Delete
        (some (faultyStore (some ((Entries.empty.set "j" (some [7])).set "k" (some [1])))
          "app"))
        "k" (faultyWorld Entries.empty [some accessDenied])).2.1 = some st ∧
      st.keys ≠ none ∧
      st.keys.lookup "k" = none ∧
      ∀ k, k ≠ "k" → st.keys.lookup k =
        (faultyStore (some ((Entries.empty.set "j" (some [7])).set "k" (some [1])))
          "app").keys.lookup k :=
  ⟨by decide,
    storageAws_delete_cache_effect
      (faultyStore (some ((Entries.empty.set "j" (some [7])).set "k" (some [1]))) "app")
      "k" (faultyWorld Entries.empty [some accessDenied])
      ((Entries.empty.set "j" (some [7])).set "k" (some [1])) rfl⟩

/-! ## Errors and the cache -/

/-- The outcomes of `Read` on a non-nil store: a cache hit, or a miss with one
`GetSecretValue` whose result decides the payload, the error and the cache. -/
theorem storageAws_read_cases {σ : Type} (s : StorageAws σ) (name : String) (w : World σ) :
    (∃ dat, s.keys.lookup name = some dat ∧
      StorageAws.Read (some s) name w = ((dat, none), some s, w)) ∨
    (s.keys.lookup name = none ∧
      (StorageAws.Read (some s) name w).2.2 =
        { remote := (s.secretsManager.GetSecretValue (filepathJoin [s.secretPrefix, name])
            w.remote).2,
          calls := w.calls ++ [Call.GetSecretValue (filepathJoin [s.secretPrefix, name])] } ∧
      match (s.secretsManager.GetSecretValue (filepathJoin [s.secretPrefix, name])
          w.remote).1 with
      | .ok res =>
        (StorageAws.Read (some s) name w).1 = (res.SecretBinary, none) ∧
        (StorageAws.Read (some s) name w).2.1 =
          some { s with keys := some ((s.keys.getD Entries.empty).set name res.SecretBinary) }
      | .error err =>
        (StorageAws.Read (some s) name w).1 =
          (none, if err.hasCode ErrCodeResourceNotFoundException = true then none
            else some (withMessagef err "Get secret value"
              (filepathJoin [s.secretPrefix, name]))) ∧
        (StorageAws.Read (some s) name w).2.1 =
          some { s with keys := some (s.keys.getD Entries.empty) }) := by
  cases hl : s.keys.lookup name with
  | some dat => exact Or.inl ⟨dat, rfl, storageAws_read_hit s name w dat hl⟩
  | none =>
    right
    obtain ⟨keys, sm, pre⟩ := s
    have hk : (match keys with | none => Entries.empty | some e => e) name = none := by
      cases keys <;> simp_all [GoMap.lookup, Entries.empty]
    refine ⟨rfl, ?_⟩
    simp only [StorageAws.Read, hk]
    cases hg : (sm.GetSecretValue (filepathJoin [pre, name]) w.remote).1 with
    | ok res => cases keys <;> simp
    | error err =>
      by_cases hx : err.hasCode ErrCodeResourceNotFoundException = true <;>
        cases keys <;> simp [hx]

/-- The service state that `Write` leaves on a non-nil store: the state after the create,
or after the update when the create failed with `ResourceExistsException`. -/
theorem storageAws_write_remote {σ : Type} (s : StorageAws σ) (name : String) (dat : Bytes)
    (w : World σ) :
    (StorageAws.Write (some s) name dat w).2.2.remote =
      if failedWith (s.secretsManager.CreateSecret (filepathJoin [s.secretPrefix, name]) dat
          w.remote).1 ErrCodeResourceExistsException = true
      then (s.secretsManager.UpdateSecret (filepathJoin [s.secretPrefix, name]) dat
        (s.secretsManager.CreateSecret (filepathJoin [s.secretPrefix, name]) dat
          w.remote).2).2
      else (s.secretsManager.CreateSecret (filepathJoin [s.secretPrefix, name]) dat
        w.remote).2 := by
  unfold StorageAws.Write
  simp only
  cases hc : (s.secretsManager.CreateSecret (filepathJoin [s.secretPrefix, name]) dat
      w.remote).1 with
  | ok v => simp [failedWith]
  | error err =>
    by_cases hx : err.hasCode ErrCodeResourceExistsException = true
    · simp only [failedWith, hx]
      cases hu : (s.secretsManager.UpdateSecret (filepathJoin [s.secretPrefix, name]) dat
        (s.secretsManager.CreateSecret (filepathJoin [s.secretPrefix, name]) dat
          w.remote).2).1 <;> simp
    · simp [failedWith, hx]

/-- C11 fails when the update fails.  The service holds `app/k`, so the create of
`Write` fails with `ResourceExistsException`; the update that follows is made to fail
with an access-denied error, and `Write` returns that error itself, with no message that
names the operation or `app/k`.  A create that fails with the same error is returned
wrapped, with the message `Put secret value for app/k failed`. -/
theorem storageAws_write_update_error_bare :
    (StorageAws.Write (some (faultyStore (some Entries.empty) "app")) "k" (some [1])
      (faultyWorld (Entries.empty.set "app/k" (some [0])) [none, some accessDenied])).1 =
      some (.aws "AccessDeniedException" "access denied") ∧
    (StorageAws.Write (some (faultyStore (some Entries.empty) "app")) "k" (some [1])
      (faultyWorld (Entries.empty.set "app/k" (some [0]))
        [none, some accessDenied])).2.2.calls =
      [Call.CreateSecret "app/k" (some [1]), Call.UpdateSecret "app/k" (some [1])] ∧
    (StorageAws.Write (some (faultyStore (some Entries.empty) "app")) "k" (some [1])
      (faultyWorld (Entries.empty.set "app/k" (some [0])) [some accessDenied])).1 =
      some (.withMessage (.aws "AccessDeniedException" "access denied")
        "Put secret value for app/k failed") := by
  decide

/-- C20. On a non-nil `StorageAws`: when `Read` returns a non-nil error the store is
non-nil and its cache has the same entry as before under every name; when `Write` returns
a non-nil error the store, its cache included, is the store as it was. -/
theorem storageAws_error_keeps_cache {σ : Type} (s : StorageAws σ) (name : String)
    (dat : Bytes) (w : World σ) :
    ((StorageAws.Read (some s) name w).1.2 ≠ none →
      ∃ st, (StorageAws.Read (some s) name w).2.1 = some st ∧
        ∀ k, st.keys.lookup k = s.keys.lookup k) ∧
    ((StorageAws.Write (some s) name dat w).1 ≠ none →
      (StorageAws.Write (some s) name dat w).2.1 = some s ∧
      ∃ st, (StorageAws.Write (some s) name dat w).2.1 = some st ∧
        ∀ k, st.keys.lookup k = s.keys.lookup k) := by
  constructor
  · intro herr
    rcases storageAws_read_cases s name w with ⟨dat, _, h⟩ | ⟨_, _, h⟩
    · rw [h] at herr; exact absurd rfl herr
    · cases hg : (s.secretsManager.GetSecretValue (filepathJoin [s.secretPrefix, name])
          w.remote).1 with
      | ok res =>
        rw [hg] at h
        rw [h.1] at herr
        exact absurd rfl herr
      | error err =>
        rw [hg] at h
        refine ⟨_, h.2, ?_⟩
        intro k
        cases hk : s.keys <;> simp [GoMap.lookup, Entries.empty]
  · intro herr
    rcases storageAws_write_cases s name dat w with
      ⟨err, _, _, _, hs⟩ | ⟨err, uerr, _, _, _, _, hs⟩ | ⟨_, he, _⟩
    · exact ⟨hs, s, hs, fun _ => rfl⟩
    · exact ⟨hs, s, hs, fun _ => rfl⟩
    · exact absurd he herr

/-- C20, at a concrete input: the cache holds `j`; a `Read` of `k` and a `Write` of `k`
whose remote call is made to fail both return an error and leave the cache with `j` and
without `k`. -/
theorem storageAws_error_keeps_cache_witness :
    ((StorageAws.Read (some (faultyStore (some (Entries.empty.set "j" (some [7]))) "app")) "k"
        (faultyWorld Entries.empty [some accessDenied])).1.2 ≠ none ∧
      ∃ st, (StorageAws.Read
          (some (faultyStore (some (Entries.empty.set "j" (some [7]))) "app")) "k"
          (faultyWorld Entries.empty [some accessDenied])).2.1 = some st ∧
        ∀ k, st.keys.lookup k =
          (faultyStore (some (Entries.empty.set "j" (some [7]))) "app").keys.lookup k) ∧
    ((StorageAws.Write (some (faultyStore (some (Entries.empty.set "j" (some [7]))) "app"))
        "k" (some [1]) (faultyWorld Entries.empty [some accessDenied])).1 ≠ none ∧
      (StorageAws.Write (some (faultyStore (some (Entries.empty.set "j" (some [7]))) "app"))
        "k" (some [1]) (faultyWorld Entries.empty [some accessDenied])).2.1 =
        some (faultyStore (some (Entries.empty.set "j" (some [7]))) "app")) :=
  ⟨⟨by decide,
      (storageAws_error_keeps_cache
        (faultyStore (some (Entries.empty.set "j" (some [7]))) "app") "k" (some [1])
        (faultyWorld Entries.empty [some accessDenied])).1 (by decide)⟩,
    by decide,
    ((storageAws_error_keeps_cache
        (faultyStore (some (Entries.empty.set "j" (some [7]))) "app") "k" (some [1])
        (faultyWorld Entries.empty [some accessDenied])).2 (by decide)).1⟩

/-! ## The key-value doubles are key-value stores -/

theorem entries_set_set (m : Entries) (name : String) (dat : Bytes) :
    (m.set name dat).set name dat = m.set name dat := by
  funext k
  by_cases h : k = name <;> simp [Entries.set, h]

theorem entries_delete_delete (m : Entries) (name : String) :
    (m.delete name).delete name = m.delete name := by
  funext k
  by_cases h : k = name <;> simp [Entries.delete, h]

theorem entries_delete_absent (m : Entries) (name : String) (h : m name = none) :
    m.delete name = m := by
  funext k
  by_cases hk : k = name
  · subst hk; simp [Entries.delete, h]
  · simp [Entries.delete, hk]

theorem kvSecretsManager_isKeyValue : IsKeyValue kvSecretsManager id := by
  constructor
  · intro secretId r res h
    simp only [kvSecretsManager] at h
    cases hr : r secretId with
    | none => simp [hr] at h
    | some p =>
      simp only [hr] at h
      cases h
      simpa using hr
  · intro secretId r
    simp only [kvSecretsManager]
    cases hr : r secretId <;> rfl
  all_goals
    intro secretId
    intros
    rename_i r h
    simp only [kvSecretsManager] at h ⊢
    cases hr : r secretId <;> simp_all [succeeded]

theorem kvSecretsManager_deleteNeverFails : DeleteNeverFails kvSecretsManager id := by
  intro secretId r
  simp only [kvSecretsManager]
  cases hr : r secretId <;>
    simp [succeeded, failedWith, Error.hasCode, hr]

theorem kvSecretsManager_createUpdateExact : CreateUpdateExact kvSecretsManager id := by
  refine ⟨?_, ?_, ?_⟩ <;>
  · intro secretId dat r h
    simp only [kvSecretsManager]
    cases hr : r secretId <;> simp_all [succeeded, failedWith, Error.hasCode]

theorem faultySecretsManager_isKeyValue :
    IsKeyValue faultySecretsManager Faulty.contents := by
  have hn : ∀ r : Faulty, r.next.2.contents = r.contents := by
    intro r
    obtain ⟨c, sc⟩ := r
    cases sc <;> rfl
  constructor
  · intro secretId r res h
    simp only [faultySecretsManager] at h
    cases hf : r.next.1 with
    | some err => simp [hf] at h
    | none =>
      simp only [hf] at h
      exact kvSecretsManager_isKeyValue.get_ok secretId r.contents res h
  · intro secretId r
    simp only [faultySecretsManager]
    cases hf : r.next.1 with
    | some err => simpa using hn r
    | none => exact kvSecretsManager_isKeyValue.get_state secretId r.contents
  · intro secretId dat r h
    simp only [faultySecretsManager] at h ⊢
    cases hf : r.next.1 with
    | some err => simp [hf, succeeded] at h
    | none =>
      simp only [hf] at h ⊢
      exact kvSecretsManager_isKeyValue.create_ok secretId dat r.contents h
  · intro secretId dat r h
    simp only [faultySecretsManager] at h ⊢
    cases hf : r.next.1 with
    | some err => simpa using hn r
    | none =>
      simp only [hf] at h ⊢
      exact kvSecretsManager_isKeyValue.create_failed secretId dat r.contents h
  · intro secretId dat r h
    simp only [faultySecretsManager] at h ⊢
    cases hf : r.next.1 with
    | some err => simp [hf, succeeded] at h
    | none =>
      simp only [hf] at h ⊢
      exact kvSecretsManager_isKeyValue.update_ok secretId dat r.contents h
  · intro secretId dat r h
    simp only [faultySecretsManager] at h ⊢
    cases hf : r.next.1 with
    | some err => simpa using hn r
    | none =>
      simp only [hf] at h ⊢
      exact kvSecretsManager_isKeyValue.update_failed secretId dat r.contents h
  · intro secretId r h
    simp only [faultySecretsManager] at h ⊢
    cases hf : r.next.1 with
    | some err => simp [hf, succeeded] at h
    | none =>
      simp only [hf] at h ⊢
      exact kvSecretsManager_isKeyValue.delete_ok secretId r.contents h
  · intro secretId r h
    simp only [faultySecretsManager] at h ⊢
    cases hf : r.next.1 with
    | some err => simpa using hn r
    | none =>
      simp only [hf] at h ⊢
      exact kvSecretsManager_isKeyValue.delete_failed secretId r.contents h

/-! ## Idempotence -/

/-- `Delete` over a key-value store whose `DeleteSecret` never fails, on a cache that is a
non-nil map: a nil error, the entry gone from the cache and the identifier gone from the
service. -/
theorem storageAws_delete_kv {σ : Type} (s : StorageAws σ) (name : String) (w : World σ)
    (contents : σ → Entries) (e : Entries) (hk : s.keys = some e)
    (hkv : IsKeyValue s.secretsManager contents)
    (hdel : DeleteNeverFails s.secretsManager contents) :
    (StorageAws.Delete (some s) name w).1 = none ∧
    (StorageAws.Delete (some s) name w).2.1 = some { s with keys := some (e.delete name) } ∧
    contents (StorageAws.Delete (some s) name w).2.2.remote =
      (contents w.remote).delete (filepathJoin [s.secretPrefix, name]) := by
  obtain ⟨hs, hw, he⟩ := storageAws_delete_cases s name w e hk
  refine ⟨?_, hs, ?_⟩
  · rw [he]
    rcases hdel (filepathJoin [s.secretPrefix, name]) w.remote with h | ⟨h, _⟩
    · cases hr : (s.secretsManager.DeleteSecret (filepathJoin [s.secretPrefix, name])
          w.remote).1 with
      | ok v => rfl
      | error err => simp [hr, succeeded] at h
    · cases hr : (s.secretsManager.DeleteSecret (filepathJoin [s.secretPrefix, name])
          w.remote).1 with
      | ok v => rfl
      | error err =>
        simp only [hr, failedWith] at h
        simp [h]
  · rw [hw]
    rcases hdel (filepathJoin [s.secretPrefix, name]) w.remote with h | ⟨h, hn⟩
    · exact hkv.delete_ok _ _ h
    · have hf : succeeded (s.secretsManager.DeleteSecret
          (filepathJoin [s.secretPrefix, name]) w.remote).1 = false := by
        cases hr : (s.secretsManager.DeleteSecret (filepathJoin [s.secretPrefix, name])
            w.remote).1 with
        | ok v => simp [hr, failedWith] at h
        | error err => rfl
      simp only
      rw [hkv.delete_failed _ _ hf, entries_delete_absent _ _ hn]

/-- C13. `Delete` twice in a row.  On a non-nil `StorageMemory` in any state both calls
return a nil error and the second leaves the store as the first left it.  On a non-nil
`StorageAws` over a key-value store whose `DeleteSecret` only ever succeeds or reports
`ResourceNotFoundException`, both calls return a nil error and the second leaves the
store (its cache) and the contents of the service as the first left them. -/
theorem delete_twice {σ : Type} (m : StorageMemory) (s : StorageAws σ) (name : String)
    (w : World σ) (contents : σ → Entries)
    (hkv : IsKeyValue s.secretsManager contents)
    (hdel : DeleteNeverFails s.secretsManager contents) :
    ((StorageMemory.Delete (some m) name).1 = none ∧
      (StorageMemory.Delete (StorageMemory.Delete (some m) name).2 name).1 = none ∧
      (StorageMemory.Delete (StorageMemory.Delete (some m) name).2 name).2 =
        (StorageMemory.Delete (some m) name).2) ∧
    ((StorageAws.Delete (some s) name w).1 = none ∧
      (StorageAws.Delete (StorageAws.Delete (some s) name w).2.1 name
        (StorageAws.Delete (some s) name w).2.2).1 = none ∧
      (StorageAws.Delete (StorageAws.Delete (some s) name w).2.1 name
        (StorageAws.Delete (some s) name w).2.2).2.1 =
        (StorageAws.Delete (some s) name w).2.1 ∧
      contents (StorageAws.Delete (StorageAws.Delete (some s) name w).2.1 name
        (StorageAws.Delete (some s) name w).2.2).2.2.remote =
        contents (StorageAws.Delete (some s) name w).2.2.remote) := by
  constructor
  · cases hk : m.keys <;> simp [StorageMemory.Delete, hk, entries_delete_delete]
  · cases hk : s.keys with
    | none => simp [StorageAws.Delete, hk]
    | some e =>
      obtain ⟨h1, h2, h3⟩ := storageAws_delete_kv s name w contents e hk hkv hdel
      obtain ⟨g1, g2, g3⟩ := storageAws_delete_kv { s with keys := some (e.delete name) }
        name (StorageAws.Delete (some s) name w).2.2 contents (e.delete name) rfl hkv hdel
      rw [h2]
      refine ⟨h1, g1, ?_, ?_⟩
      · rw [g2, entries_delete_delete]
      · rw [g3, h3, entries_delete_delete]

/-- C13, at a concrete input: the name `k` was never written to the memory store, and the
`StorageAws` over the key-value double holds it in its cache and in the service. -/
theorem delete_twice_witness :
    (StorageMemory.Delete (StorageMemory.Delete (some { keys := none }) "k").2 "k").1 = none ∧
    (StorageAws.Delete
      (StorageAws.Delete (some (kvStore (some (Entries.empty.set "k" (some [1]))) "app")) "k"
        (kvWorld (Entries.empty.set "app/k" (some [1])))).2.1 "k"
      (StorageAws.Delete (some (kvStore (some (Entries.empty.set "k" (some [1]))) "app")) "k"
        (kvWorld (Entries.empty.set "app/k" (some [1])))).2.2).1 = none ∧
    (StorageAws.Delete
      (StorageAws.Delete (some (kvStore (some (Entries.empty.set "k" (some [1]))) "app")) "k"
        (kvWorld (Entries.empty.set "app/k" (some [1])))).2.1 "k"
      (StorageAws.Delete (some (kvStore (some (Entries.empty.set "k" (some [1]))) "app")) "k"
        (kvWorld (Entries.empty.set "app/k" (some [1])))).2.2).2.1 =
      (StorageAws.Delete (some (kvStore (some (Entries.empty.set "k" (some [1]))) "app")) "k"
        (kvWorld (Entries.empty.set "app/k" (some [1])))).2.1 :=
  ⟨(delete_twice { keys := none } (kvStore (some (Entries.empty.set "k" (some [1]))) "app") "k"
      (kvWorld (Entries.empty.set "app/k" (some [1]))) id kvSecretsManager_isKeyValue
      kvSecretsManager_deleteNeverFails).1.2.1,
    (delete_twice { keys := none } (kvStore (some (Entries.empty.set "k" (some [1]))) "app") "k"
      (kvWorld (Entries.empty.set "app/k" (some [1]))) id kvSecretsManager_isKeyValue
      kvSecretsManager_deleteNeverFails).2.2.1,
    (delete_twice { keys := none } (kvStore (some (Entries.empty.set "k" (some [1]))) "app") "k"
      (kvWorld (Entries.empty.set "app/k" (some [1]))) id kvSecretsManager_isKeyValue
      kvSecretsManager_deleteNeverFails).2.2.2.1⟩

/-- `Write` over a key-value store whose create and update are exact: a nil error, the
payload in the cache under the name and in the service under the identifier. -/
theorem storageAws_write_kv {σ : Type} (s : StorageAws σ) (name : String) (dat : Bytes)
    (w : World σ) (contents : σ → Entries)
    (hkv : IsKeyValue s.secretsManager contents)
    (hcu : CreateUpdateExact s.secretsManager contents) :
    (StorageAws.Write (some s) name dat w).1 = none ∧
    (StorageAws.Write (some s) name dat w).2.1 =
      some { s with keys := some ((s.keys.getD Entries.empty).set name dat) } ∧
    contents (StorageAws.Write (some s) name dat w).2.2.remote =
      (contents w.remote).set (filepathJoin [s.secretPrefix, name]) dat := by
  obtain ⟨hheld, hfree, hupd⟩ := hcu
  have hrem := storageAws_write_remote s name dat w
  by_cases hh : contents w.remote (filepathJoin [s.secretPrefix, name]) = none
  · have hc := hfree _ dat _ hh
    have hnf : failedWith (s.secretsManager.CreateSecret
        (filepathJoin [s.secretPrefix, name]) dat w.remote).1
        ErrCodeResourceExistsException = false := by
      cases hr : (s.secretsManager.CreateSecret (filepathJoin [s.secretPrefix, name]) dat
          w.remote).1 with
      | ok v => rfl
      | error err => simp [hr, succeeded] at hc
    rw [hnf] at hrem
    rcases storageAws_write_cases s name dat w with
      ⟨err, hce, _⟩ | ⟨err, uerr, hce, _⟩ | ⟨_, he, hs⟩
    · simp [hce, succeeded] at hc
    · simp [hce, succeeded] at hc
    · refine ⟨he, hs, ?_⟩
      rw [hrem]
      simpa using hkv.create_ok _ dat _ hc
  · have hc := hheld _ dat _ hh
    have hcf : succeeded (s.secretsManager.CreateSecret
        (filepathJoin [s.secretPrefix, name]) dat w.remote).1 = false := by
      cases hr : (s.secretsManager.CreateSecret (filepathJoin [s.secretPrefix, name]) dat
          w.remote).1 with
      | ok v => simp [hr, failedWith] at hc
      | error err => rfl
    have hsame := hkv.create_failed _ dat _ hcf
    have hu := hupd (filepathJoin [s.secretPrefix, name]) dat
      (s.secretsManager.CreateSecret (filepathJoin [s.secretPrefix, name]) dat w.remote).2
      (by rw [hsame]; exact hh)
    rw [hc] at hrem
    rcases storageAws_write_cases s name dat w with
      ⟨err, hce, hx, _⟩ | ⟨err, uerr, _, _, hue, _⟩ | ⟨_, he, hs⟩
    · simp [hce, failedWith, hx] at hc
    · simp [hue, succeeded] at hu
    · refine ⟨he, hs, ?_⟩
      rw [hrem]
      simp only [if_true]
      rw [hkv.update_ok _ dat _ hu, hsame]

/-- C14. `Write` of the same payload twice in a row.  On a non-nil `StorageMemory` both
calls return a nil error and the store after the second is the store after the first.  On
a non-nil `StorageAws` over a key-value store whose `CreateSecret` fails with
`ResourceExistsException` exactly for a held identifier and whose `UpdateSecret` of a held
identifier succeeds, both calls return a nil error, and the store (its cache) and the
contents of the service after the second are those after the first. -/
theorem write_twice {σ : Type} (m : StorageMemory) (s : StorageAws σ) (name : String)
    (dat : Bytes) (w : World σ) (contents : σ → Entries)
    (hkv : IsKeyValue s.secretsManager contents)
    (hcu : CreateUpdateExact s.secretsManager contents) :
    ((StorageMemory.Write (some m) name dat).1 = none ∧
      (StorageMemory.Write (StorageMemory.Write (some m) name dat).2 name dat).1 = none ∧
      (StorageMemory.Write (StorageMemory.Write (some m) name dat).2 name dat).2 =
        (StorageMemory.Write (some m) name dat).2) ∧
    ((StorageAws.Write (some s) name dat w).1 = none ∧
      (StorageAws.Write (StorageAws.Write (some s) name dat w).2.1 name dat
        (StorageAws.Write (some s) name dat w).2.2).1 = none ∧
      (StorageAws.Write (StorageAws.Write (some s) name dat w).2.1 name dat
        (StorageAws.Write (some s) name dat w).2.2).2.1 =
        (StorageAws.Write (some s) name dat w).2.1 ∧
      contents (StorageAws.Write (StorageAws.Write (some s) name dat w).2.1 name dat
        (StorageAws.Write (some s) name dat w).2.2).2.2.remote =
        contents (StorageAws.Write (some s) name dat w).2.2.remote) := by
  constructor
  · cases hk : m.keys <;> simp [StorageMemory.Write, hk, entries_set_set]
  · obtain ⟨h1, h2, h3⟩ := storageAws_write_kv s name dat w contents hkv hcu
    obtain ⟨g1, g2, g3⟩ := storageAws_write_kv
      { s with keys := some ((s.keys.getD Entries.empty).set name dat) } name dat
      (StorageAws.Write (some s) name dat w).2.2 contents hkv hcu
    rw [h2]
    refine ⟨h1, g1, ?_, ?_⟩
    · rw [g2]
      simp [entries_set_set]
    · rw [g3, h3, entries_set_set]

/-- C14, at a concrete input: a `StorageAws` with a nil cache over the empty key-value
double writes `k` twice; the second call goes through the update and returns nil. -/
theorem write_twice_witness :
    (StorageAws.Write (some (kvStore none "app")) "k" (some [1])
      (kvWorld Entries.empty)).1 = none ∧
    (StorageAws.Write
      (StorageAws.Write (some (kvStore none "app")) "k" (some [1])
        (kvWorld Entries.empty)).2.1 "k" (some [1])
      (StorageAws.Write (some (kvStore none "app")) "k" (some [1])
        (kvWorld Entries.empty)).2.2).1 = none ∧
    (StorageAws.Write
      (StorageAws.Write (some (kvStore none "app")) "k" (some [1])
        (kvWorld Entries.empty)).2.1 "k" (some [1])
      (StorageAws.Write (some (kvStore none "app")) "k" (some [1])
        (kvWorld Entries.empty)).2.2).2.1 =
      (StorageAws.Write (some (kvStore none "app")) "k" (some [1])
        (kvWorld Entries.empty)).2.1 :=
  ⟨(write_twice { keys := none } (kvStore none "app") "k" (some [1]) (kvWorld Entries.empty)
      id kvSecretsManager_isKeyValue kvSecretsManager_createUpdateExact).2.1,
    (write_twice { keys := none } (kvStore none "app") "k" (some [1]) (kvWorld Entries.empty)
      id kvSecretsManager_isKeyValue kvSecretsManager_createUpdateExact).2.2.1,
    (write_twice { keys := none } (kvStore none "app") "k" (some [1]) (kvWorld Entries.empty)
      id kvSecretsManager_isKeyValue kvSecretsManager_createUpdateExact).2.2.2.1⟩

/-! ## Read-through caching -/

/-- A `Read` of any name keeps an entry that the cache holds. -/
theorem storageAws_read_keeps_entry {σ : Type} (s : StorageAws σ) (name k : String)
    (w : World σ) (p : Bytes) (h : s.keys.lookup name = some p) :
    ∃ st, (StorageAws.Read (some s) k w).2.1 = some st ∧ st.keys.lookup name = some p := by
  rcases storageAws_read_cases s k w with ⟨dat, _, hr⟩ | ⟨hmiss, _, hr⟩
  · exact ⟨s, by rw [hr], h⟩
  · have hne : name ≠ k := by
      intro hnk
      rw [hnk, hmiss] at h
      cases h
    cases hg : (s.secretsManager.GetSecretValue (filepathJoin [s.secretPrefix, k])
        w.remote).1 with
    | ok res =>
      rw [hg] at hr
      refine ⟨_, hr.2, ?_⟩
      cases hk : s.keys <;> simp_all [GoMap.lookup, Entries.set]
    | error err =>
      rw [hg] at hr
      refine ⟨_, hr.2, ?_⟩
      cases hk : s.keys <;> simp_all [GoMap.lookup]

/-- A run of `Read` calls keeps an entry that the cache holds. -/
theorem storageAws_readMany_keeps_entry {σ : Type} (name : String) (p : Bytes)
    (later : List (String × World σ)) :
    ∀ s : StorageAws σ, s.keys.lookup name = some p →
      ∃ st, StorageAws.readMany (some s) later = some st ∧
        st.keys.lookup name = some p := by
  induction later with
  | nil => intro s h; exact ⟨s, rfl, h⟩
  | cons kw rest ih =>
    intro s h
    obtain ⟨k, w⟩ := kw
    obtain ⟨st, hst, hl⟩ := storageAws_read_keeps_entry s name k w p h
    simp only [StorageAws.readMany]
    rw [hst]
    exact ih st hl

/-- C16. On a non-nil `StorageAws` whose cache has no entry for the name, if
`GetSecretValue` for `filepath.Join(prefix, name)` succeeds with payload `p`, then `Read`
returns `p` with a nil error; the cache afterwards holds `p` under the name and the entry
of every other name is as before; and after any further run of `Read` calls on the store
(any names, each finding the service in any state), a `Read` of the name returns `p` with
a nil error and leaves the world it finds as it is, so it issues no remote call. -/
theorem storageAws_read_through {σ : Type} (s : StorageAws σ) (name : String) (w : World σ)
    (res : GetSecretValueOutput) (hmiss : s.keys.lookup name = none)
    (hget : (s.secretsManager.GetSecretValue (filepathJoin [s.secretPrefix, name])
      w.remote).1 = .ok res) :
    (StorageAws.Read (some s) name w).1 = (res.SecretBinary, none) ∧
    (∃ st, (StorageAws.Read (some s) name w).2.1 = some st ∧
      st.keys.lookup name = some res.SecretBinary ∧
      ∀ k, k ≠ name → st.keys.lookup k = s.keys.lookup k) ∧
    ∀ (later : List (String × World σ)) (w' : World σ),
      (StorageAws.Read (StorageAws.readMany (StorageAws.Read (some s) name w).2.1 later)
        name w').1 = (res.SecretBinary, none) ∧
      (StorageAws.Read (StorageAws.readMany (StorageAws.Read (some s) name w).2.1 later)
        name w').2.2 = w' := by
  obtain ⟨h1, h2⟩ := storageAws_read_miss_ok s name w res hmiss hget
  have hl : GoMap.lookup (some ((s.keys.getD Entries.empty).set name res.SecretBinary))
      name = some res.SecretBinary := by
    simp [GoMap.lookup, Entries.set]
  refine ⟨h1, ⟨_, h2, hl, ?_⟩, ?_⟩
  · intro k hk
    cases hkeys : s.keys <;> simp [GoMap.lookup, Entries.set, hk, Entries.empty]
  · intro later w'
    rw [h2]
    obtain ⟨st, hst, hp⟩ := storageAws_readMany_keeps_entry name res.SecretBinary later
      { s with keys := some ((s.keys.getD Entries.empty).set name res.SecretBinary) } hl
    rw [hst, storageAws_read_hit st name w' res.SecretBinary hp]
    exact ⟨rfl, rfl⟩

/-- C16, at a concrete input: the key-value double holds `app/k`; a store with an empty
cache reads `k`, then `j`, and then reads `k` from a world in which the service holds
nothing any more. -/
theorem storageAws_read_through_witness :
    (StorageAws.Read (some (kvStore (some Entries.empty) "app")) "k"
      (kvWorld (Entries.empty.set "app/k" (some [9])))).1 = (some [9], none) ∧
    (StorageAws.Read
      (StorageAws.readMany
        (StorageAws.Read (some (kvStore (some Entries.empty) "app")) "k"
          (kvWorld (Entries.empty.set "app/k" (some [9])))).2.1
        [("j", kvWorld Entries.empty)])
      "k" (kvWorld Entries.empty)).1 = (some [9], none) ∧
    (StorageAws.Read
      (StorageAws.readMany
        (StorageAws.Read (some (kvStore (some Entries.empty) "app")) "k"
          (kvWorld (Entries.empty.set "app/k" (some [9])))).2.1
        [("j", kvWorld Entries.empty)])
      "k" (kvWorld Entries.empty)).2.2 = kvWorld Entries.empty :=
  ⟨(storageAws_read_through (kvStore (some Entries.empty) "app") "k"
      (kvWorld (Entries.empty.set "app/k" (some [9]))) { SecretBinary := some [9] }
      (by decide) rfl).1,
    (storageAws_read_through (kvStore (some Entries.empty) "app") "k"
      (kvWorld (Entries.empty.set "app/k" (some [9]))) { SecretBinary := some [9] }
      (by decide) rfl).2.2 [("j", kvWorld Entries.empty)] (kvWorld Entries.empty)⟩

/-! ## Cache coherence -/

/-- The contents of a key-value service after `Write`: the payload is stored under the
identifier when `Write` returns a nil error, and nothing changes when it returns an
error. -/
theorem storageAws_write_contents {σ : Type} (s : StorageAws σ) (name : String)
    (dat : Bytes) (w : World σ) (contents : σ → Entries)
    (hkv : IsKeyValue s.secretsManager contents) :
    contents (StorageAws.Write (some s) name dat w).2.2.remote =
      if (StorageAws.Write (some s) name dat w).1 = none
      then (contents w.remote).set (filepathJoin [s.secretPrefix, name]) dat
      else contents w.remote := by
  have hrem := storageAws_write_remote s name dat w
  rcases storageAws_write_cases s name dat w with
    ⟨err, hce, hx, he, _⟩ | ⟨err, uerr, hce, hx, hue, he, _⟩ | ⟨hok, he, _⟩
  · rw [he, hrem]
    simp only [hce, failedWith, hx]
    simp only [Bool.false_eq_true, if_false, reduceCtorEq]
    exact hkv.create_failed _ dat _ (by rw [hce]; rfl)
  · rw [he, hrem]
    simp only [hce, failedWith, hx, if_true, reduceCtorEq, if_false]
    rw [hkv.update_failed _ dat _ (by rw [hue]; rfl)]
    exact hkv.create_failed _ dat _ (by rw [hce]; rfl)
  · rw [he, hrem]
    simp only [if_true]
    rcases hok with hc | ⟨hc, hu⟩
    · have hnf : failedWith (s.secretsManager.CreateSecret
          (filepathJoin [s.secretPrefix, name]) dat w.remote).1
          ErrCodeResourceExistsException = false := by
        cases hr : (s.secretsManager.CreateSecret (filepathJoin [s.secretPrefix, name]) dat
            w.remote).1 with
        | ok v => rfl
        | error err => simp [hr, succeeded] at hc
      rw [hnf]
      simpa using hkv.create_ok _ dat _ hc
    · have hcf : succeeded (s.secretsManager.CreateSecret
          (filepathJoin [s.secretPrefix, name]) dat w.remote).1 = false := by
        cases hr : (s.secretsManager.CreateSecret (filepathJoin [s.secretPrefix, name]) dat
            w.remote).1 with
        | ok v => simp [hr, failedWith] at hc
        | error err => rfl
      rw [hc]
      simp only [if_true]
      rw [hkv.update_ok _ dat _ hu, hkv.create_failed _ dat _ hcf]

/-- One call keeps the invariant, when the service is a key-value store whose calls may
fail and the name of the call does not alias any other name in use. -/
theorem storageAws_step_inv {σ : Type} (contents : σ → Entries) (names : List String)
    (pre : String) (sm : SecretsManager σ) (hkv : IsKeyValue sm contents)
    (hinj : NoAlias pre names) (s : Option (StorageAws σ)) (w : World σ) (op : Op)
    (hop : op.name ∈ names) (h : CacheInv contents names pre sm s w) :
    CacheInv contents names pre sm (StorageAws.step s w op).1 (StorageAws.step s w op).2 := by
  obtain ⟨st, rfl, rfl, rfl, hnn, hc⟩ := h
  obtain ⟨e, he⟩ : ∃ e, st.keys = some e := by
    cases hk : st.keys with
    | none => exact absurd hk hnn
    | some e => exact ⟨e, rfl⟩
  have hlk : ∀ k, st.keys.lookup k = e k := by intro k; simp [GoMap.lookup, he]
  cases op with
  | Read n =>
    simp only [StorageAws.step]
    rcases storageAws_read_cases st n w with ⟨dat, _, hr⟩ | ⟨hmiss, hw, hres⟩
    · rw [hr]
      exact ⟨st, rfl, rfl, rfl, hnn, hc⟩
    · rw [hw]
      cases hg : (st.secretsManager.GetSecretValue (filepathJoin [st.secretPrefix, n])
          w.remote).1 with
      | ok res =>
        rw [hg] at hres
        refine ⟨_, hres.2, rfl, rfl, by simp, ?_⟩
        intro k p hk
        simp only [hkv.get_state]
        by_cases hkn : k = n
        · subst hkn
          have hp : p = res.SecretBinary := by
            simpa [GoMap.lookup, Entries.set] using hk.symm
          subst hp
          exact ⟨hop, hkv.get_ok _ _ res hg⟩
        · have hk' : st.keys.lookup k = some p := by
            rw [hlk]
            simpa [GoMap.lookup, Entries.set, hkn, he] using hk
          exact hc k p hk'
      | error err =>
        rw [hg] at hres
        refine ⟨_, hres.2, rfl, rfl, by simp, ?_⟩
        intro k p hk
        simp only [hkv.get_state]
        have hk' : st.keys.lookup k = some p := by
          rw [hlk]
          simpa [GoMap.lookup, he] using hk
        exact hc k p hk'
  | Write n dat =>
    simp only [StorageAws.step]
    have hcont := storageAws_write_contents st n dat w contents hkv
    rcases storageAws_write_cases st n dat w with
      ⟨err, _, _, herr, hs⟩ | ⟨err, uerr, _, _, _, herr, hs⟩ | ⟨_, herr, hs⟩
    · rw [herr] at hcont
      simp only [reduceCtorEq, if_false] at hcont
      refine ⟨st, hs, rfl, rfl, hnn, ?_⟩
      rw [hcont]
      exact hc
    · rw [herr] at hcont
      simp only [reduceCtorEq, if_false] at hcont
      refine ⟨st, hs, rfl, rfl, hnn, ?_⟩
      rw [hcont]
      exact hc
    · rw [herr] at hcont
      simp only [if_true] at hcont
      refine ⟨_, hs, rfl, rfl, by simp, ?_⟩
      rw [hcont]
      intro k p hk
      by_cases hkn : k = n
      · subst hkn
        have hp : p = dat := by
          simpa [GoMap.lookup, Entries.set] using hk.symm
        subst hp
        exact ⟨hop, by simp [Entries.set]⟩
      · have hk' : st.keys.lookup k = some p := by
          rw [hlk]
          simpa [GoMap.lookup, Entries.set, hkn, he] using hk
        obtain ⟨hkL, hkc⟩ := hc k p hk'
        refine ⟨hkL, ?_⟩
        have hne : filepathJoin [st.secretPrefix, k] ≠ filepathJoin [st.secretPrefix, n] :=
          fun hj => hkn (hinj k hkL n hop hj)
        rw [entries_set_other _ _ _ _ hne]
        exact hkc
  | Delete n =>
    simp only [StorageAws.step]
    obtain ⟨hs, hw, _⟩ := storageAws_delete_cases st n w e he
    refine ⟨_, hs, rfl, rfl, by simp, ?_⟩
    rw [hw]
    intro k p hk
    have hkn : k ≠ n := by
      intro hkn
      subst hkn
      simp [GoMap.lookup, Entries.delete] at hk
    have hk' : st.keys.lookup k = some p := by
      rw [hlk]
      simpa [GoMap.lookup, Entries.delete, hkn] using hk
    obtain ⟨hkL, hkc⟩ := hc k p hk'
    refine ⟨hkL, ?_⟩
    have hne : filepathJoin [st.secretPrefix, k] ≠ filepathJoin [st.secretPrefix, n] :=
      fun hj => hkn (hinj k hkL n hop hj)
    simp only
    cases hd : succeeded (st.secretsManager.DeleteSecret
        (filepathJoin [st.secretPrefix, n]) w.remote).1 with
    | true =>
      rw [hkv.delete_ok _ _ hd, entries_delete_other _ _ _ hne]
      exact hkc
    | false =>
      rw [hkv.delete_failed _ _ hd]
      exact hkc

/-- A sequence of calls keeps the invariant. -/
theorem storageAws_run_inv {σ : Type} (contents : σ → Entries) (names : List String)
    (pre : String) (sm : SecretsManager σ) (hkv : IsKeyValue sm contents)
    (hinj : NoAlias pre names) (ops : List Op) :
    ∀ (s : Option (StorageAws σ)) (w : World σ), (∀ op ∈ ops, op.name ∈ names) →
      CacheInv contents names pre sm s w →
      CacheInv contents names pre sm (StorageAws.run s w ops).1
        (StorageAws.run s w ops).2 := by
  induction ops with
  | nil => intro s w _ h; exact h
  | cons op ops ih =>
    intro s w hops h
    simp only [StorageAws.run]
    exact ih _ _ (fun o ho => hops o (List.mem_cons_of_mem _ ho))
      (storageAws_step_inv contents names pre sm hkv hinj s w op
        (hops op (List.mem_cons_self _ _)) h)

/-- C19, as stated, fails on names that share a remote identifier.  A store built by
`NewStorageAws` with prefix `app` over the empty key-value double writes `[1]` under `a`
and then `[2]` under `./a`.  Both names give the identifier `app/a`; afterwards the cache
still holds `[1]` under `a` while the service holds `[2]` under `app/a`, so the state is
not coherent. -/
theorem storageAws_alias_breaks_coherence :
    filepathJoin ["app", "./a"] = filepathJoin ["app", "a"] ∧
    ((StorageAws.run (NewStorageAws (fun _ : Unit => kvSecretsManager) (some ()) "app").1
        (kvWorld Entries.empty) [.Write "a" (some [1]), .Write "./a" (some [2])]).1.map
      (fun st => st.keys.lookup "a")) = some (some (some [1])) ∧
    (StorageAws.run (NewStorageAws (fun _ : Unit => kvSecretsManager) (some ()) "app").1
        (kvWorld Entries.empty) [.Write "a" (some [1]), .Write "./a" (some [2])]).2.remote
      "app/a" = some (some [2]) ∧
    ¬ Coherent id
      (StorageAws.run (NewStorageAws (fun _ : Unit => kvSecretsManager) (some ()) "app").1
        (kvWorld Entries.empty) [.Write "a" (some [1]), .Write "./a" (some [2])]).1
      (StorageAws.run (NewStorageAws (fun _ : Unit => kvSecretsManager) (some ()) "app").1
        (kvWorld Entries.empty) [.Write "a" (some [1]), .Write "./a" (some [2])]).2 := by
  refine ⟨by decide, by decide, by decide, ?_⟩
  intro h
  have h1 := h _ rfl "a" (some [1]) (by decide)
  exact absurd h1 (by decide)

/-- C19, amended.  A store built by `NewStorageAws` with a non-empty prefix, over a
key-value service whose calls may fail (a failed call changes nothing) and that only this
store writes: after every initial part of any sequence of `Read`, `Write` and `Delete`
calls in which no two names share a remote identifier, the store is non-nil and whatever
its cache holds under a name, the service holds under `filepath.Join(prefix, name)`. -/
theorem storageAws_cache_coherent {Session σ : Type}
    (secretsmanagerNew : Session → SecretsManager σ) (sess : Session) (pre : String)
    (contents : σ → Entries) (w : World σ) (ops : List Op) (n : Nat)
    (hkv : IsKeyValue (secretsmanagerNew sess) contents) (hpre : pre ≠ "")
    (hinj : NoAlias pre (ops.map Op.name)) :
    (StorageAws.run (NewStorageAws secretsmanagerNew (some sess) pre).1 w
      (ops.take n)).1 ≠ none ∧
    Coherent contents
      (StorageAws.run (NewStorageAws secretsmanagerNew (some sess) pre).1 w (ops.take n)).1
      (StorageAws.run (NewStorageAws secretsmanagerNew (some sess) pre).1 w
        (ops.take n)).2 := by
  have h0 : CacheInv contents (ops.map Op.name) pre (secretsmanagerNew sess)
      (NewStorageAws secretsmanagerNew (some sess) pre).1 w := by
    refine ⟨StorageAws.mk (some Entries.empty) (secretsmanagerNew sess) pre,
      by simp [NewStorageAws, hpre], rfl, rfl, by simp, ?_⟩
    intro name p hl
    simp [GoMap.lookup, Entries.empty] at hl
  have hops : ∀ op ∈ ops.take n, op.name ∈ ops.map Op.name := fun op ho =>
    List.mem_map_of_mem _ (List.mem_of_mem_take ho)
  obtain ⟨st, hst, hp, _, _, hc⟩ := storageAws_run_inv contents (ops.map Op.name) pre
    (secretsmanagerNew sess) hkv hinj (ops.take n) _ w hops h0
  refine ⟨by rw [hst]; simp, ?_⟩
  intro st' hst' name p hl
  rw [hst] at hst'
  cases hst'
  rw [hp]
  exact (hc name p hl).2

/-- C19 amended, at a concrete input: over the double with injected failures, which
holds `app/b`, the store writes `a`, reads `b`, fails to delete `a`, and writes `b` through
the update; the state after these four calls is coherent. -/
theorem storageAws_cache_coherent_witness :
    NoAlias "app"
      ([Op.Write "a" (some [1]), .Read "b", .Delete "a", .Write "b" (some [2])].map Op.name) ∧
    Coherent Faulty.contents
      (StorageAws.run (NewStorageAws (fun _ : Unit => faultySecretsManager) (some ()) "app").1
        (faultyWorld (Entries.empty.set "app/b" (some [0])) [none, none, some accessDenied])
        ([Op.Write "a" (some [1]), .Read "b", .Delete "a", .Write "b" (some [2])].take 4)).1
      (StorageAws.run (NewStorageAws (fun _ : Unit => faultySecretsManager) (some ()) "app").1
        (faultyWorld (Entries.empty.set "app/b" (some [0])) [none, none, some accessDenied])
        ([Op.Write "a" (some [1]), .Read "b", .Delete "a", .Write "b" (some [2])].take 4)).2 :=
  ⟨by unfold NoAlias; decide,
    (storageAws_cache_coherent (fun _ : Unit => faultySecretsManager) () "app"
      Faulty.contents
      (faultyWorld (Entries.empty.set "app/b" (some [0])) [none, none, some accessDenied])
      [Op.Write "a" (some [1]), .Read "b", .Delete "a", .Write "b" (some [2])] 4
      faultySecretsManager_isKeyValue (by decide) (by unfold NoAlias; decide)).2⟩

/-! ## The remote identifier -/

/-- The loop of `Clean` looks at the path only from `r` on: one character less in front
and `r` one less give the same buffer. -/
theorem cleanLoop_cons (a : Char) (path : List Char) (rooted : Bool) :
    ∀ (fuel r : Nat) (out : List Char) (dotdot : Nat),
      cleanLoop (a :: path) rooted fuel (r + 1) out dotdot =
        cleanLoop path rooted fuel r out dotdot := by
  intro fuel
  induction fuel with
  | zero => intro r out dotdot; rfl
  | succ fuel ih =>
    intro r out dotdot
    have e2 : r + 1 + 2 = (r + 2) + 1 := rfl
    have e3 : ∀ k, r + 1 + k = (r + k) + 1 := by intro k; omega
    simp only [cleanLoop, List.length_cons, List.getD_cons_succ, List.drop_succ_cons,
      Nat.add_lt_add_iff_right, e2, e3, ih]
    simp

/-- The loop of `Clean` started behind a part of the path is the loop on what is left. -/
theorem cleanLoop_append (pre path : List Char) (rooted : Bool) (fuel r : Nat)
    (out : List Char) (dotdot : Nat) :
    cleanLoop (pre ++ path) rooted fuel (pre.length + r) out dotdot =
      cleanLoop path rooted fuel r out dotdot := by
  induction pre generalizing r with
  | nil => simp
  | cons a pre ih =>
    have e : (a :: pre).length + r = (pre.length + r) + 1 := by simp; omega
    rw [List.cons_append, e, cleanLoop_cons, ih]

/-- The element that `Clean` copies from the start of a plain segment is the segment. -/
theorem takeWhile_plain (seg tail : List Char)
    (hseg : seg.all (fun c => !isPathSeparator c) = true)
    (htail : tail = [] ∨ ∃ t, tail = '/' :: t) :
    (seg ++ tail).takeWhile (fun c => !isPathSeparator c) = seg := by
  rw [List.takeWhile_append_of_pos (by simpa using hseg)]
  rcases htail with rfl | ⟨t, rfl⟩ <;> simp [isPathSeparator]

/-- One iteration of the loop of `Clean` at the start of a plain segment copies the
segment, after a separator unless the buffer is empty. -/
theorem cleanLoop_plain_step (seg tail out : List Char) (fuel : Nat)
    (hseg : plainSegment seg = true) (htail : tail = [] ∨ ∃ t, tail = '/' :: t) :
    cleanLoop (seg ++ tail) false (fuel + 1) 0 out 0 =
      cleanLoop tail false fuel 0 ((if out = [] then [] else out ++ ['/']) ++ seg) 0 := by
  simp only [plainSegment, Bool.and_eq_true, decide_eq_true_eq] at hseg
  obtain ⟨⟨⟨hne, hall⟩, hdot⟩, hdotdot⟩ := hseg
  have htw := takeWhile_plain seg tail hall htail
  have hshift := cleanLoop_append seg tail false fuel 0
    ((if out = [] then [] else out ++ ['/']) ++ seg) 0
  rw [← hshift]
  have hout : (if (false && out.length != 1 || !false && out.length != 0) = true
      then out ++ ['/'] else out) = (if out = [] then [] else out ++ ['/']) := by
    cases out <;> simp
  rcases seg with _ | ⟨c, _ | ⟨d, _ | ⟨e, cs⟩⟩⟩
  · exact absurd rfl hne
  · have hc : isPathSeparator c = false := by simpa using hall
    have hc' : c ≠ '.' := by simpa using hdot
    simp only [cleanLoop, List.drop_zero, htw, hout]
    simp [hc, hc']
  · have hc : isPathSeparator c = false := by simp at hall; simp [hall.1]
    have hd : isPathSeparator d = false := by simp at hall; simp [hall.2]
    have hcd : ¬ (c = '.' ∧ d = '.') := by simpa using hdotdot
    simp only [cleanLoop, List.drop_zero, htw, hout]
    simp [hc, hd]
    intro h1 h2
    exact absurd ⟨h1, h2⟩ hcd
  · have hc : isPathSeparator c = false := by simp at hall; simp [hall.1]
    have hd : isPathSeparator d = false := by simp at hall; simp [hall.2.1]
    have he : isPathSeparator e = false := by simp at hall; simp [hall.2.2.1]
    simp only [cleanLoop, List.drop_zero, htw, hout]
    simp [hc, hd, he]

/-- Joining two or more segments. -/
theorem joinSegments_cons_cons (seg seg2 : List Char) (rest : List (List Char)) :
    joinSegments (seg :: seg2 :: rest) = seg ++ '/' :: joinSegments (seg2 :: rest) := rfl

/-- Joining two non-empty lists of segments. -/
theorem joinSegments_append (ps ns : List (List Char)) (hps : ps ≠ []) (hns : ns ≠ []) :
    joinSegments (ps ++ ns) = joinSegments ps ++ '/' :: joinSegments ns := by
  induction ps with
  | nil => exact absurd rfl hps
  | cons seg rest ih =>
    cases rest with
    | nil =>
      cases ns with
      | nil => exact absurd rfl hns
      | cons n ns => rfl
    | cons seg2 rest =>
      rw [List.cons_append, List.cons_append, joinSegments_cons_cons, ← List.cons_append,
        ih (by simp), joinSegments_cons_cons]
      simp

/-- The loop of `Clean` on a relative path of plain segments appends the path to the
buffer. -/
theorem cleanLoop_plain (segs : List (List Char)) :
    ∀ (out : List Char) (fuel : Nat), segs ≠ [] →
      (∀ seg ∈ segs, plainSegment seg = true) → (joinSegments segs).length ≤ fuel →
      cleanLoop (joinSegments segs) false fuel 0 out 0 =
        (if out = [] then [] else out ++ ['/']) ++ joinSegments segs := by
  induction segs with
  | nil => intro out fuel h; exact absurd rfl h
  | cons seg rest ih =>
    intro out fuel _ hplain hfuel
    have hseg : plainSegment seg = true := hplain seg (List.mem_cons_self _ _)
    have hne : seg ≠ [] := by
      intro h
      simp [plainSegment, h] at hseg
    have hpos : 0 < seg.length := List.length_pos.mpr hne
    cases rest with
    | nil =>
      have hj : joinSegments [seg] = seg ++ [] := by simp [joinSegments]
      rw [hj] at hfuel ⊢
      obtain ⟨f, rfl⟩ : ∃ f, fuel = f + 1 := ⟨fuel - 1, by simp at hfuel; omega⟩
      rw [cleanLoop_plain_step seg [] out f hseg (Or.inl rfl)]
      cases f <;> simp [cleanLoop]
    | cons seg2 rest =>
      rw [joinSegments_cons_cons] at hfuel ⊢
      simp only [List.length_append, List.length_cons] at hfuel
      obtain ⟨f, rfl⟩ : ∃ f, fuel = f + 1 + 1 := ⟨fuel - 2, by omega⟩
      rw [cleanLoop_plain_step seg _ out (f + 1) hseg (Or.inr ⟨_, rfl⟩)]
      have hsep : cleanLoop ('/' :: joinSegments (seg2 :: rest)) false (f + 1) 0
          ((if out = [] then [] else out ++ ['/']) ++ seg) 0 =
          cleanLoop ('/' :: joinSegments (seg2 :: rest)) false f (0 + 1)
            ((if out = [] then [] else out ++ ['/']) ++ seg) 0 := by
        simp [cleanLoop, isPathSeparator]
      rw [hsep, cleanLoop_cons, ih _ f (by simp)
        (fun s hs => hplain s (List.mem_cons_of_mem _ hs)) (by omega)]
      have hne' : (if out = [] then [] else out ++ ['/']) ++ seg ≠ [] := by
        simp [hne]
      simp [hne']

/-- A path of plain segments starts with a character that is not the separator. -/
theorem joinSegments_ne_nil (segs : List (List Char)) (hne : segs ≠ [])
    (hplain : ∀ seg ∈ segs, plainSegment seg = true) :
    ∃ c rest, joinSegments segs = c :: rest ∧ isPathSeparator c = false := by
  cases segs with
  | nil => exact absurd rfl hne
  | cons seg rest =>
    have hseg := hplain seg (List.mem_cons_self _ _)
    simp only [plainSegment, Bool.and_eq_true, decide_eq_true_eq] at hseg
    obtain ⟨⟨⟨hn, hall⟩, _⟩, _⟩ := hseg
    cases seg with
    | nil => exact absurd rfl hn
    | cons c cs =>
      have hc : isPathSeparator c = false := by simp at hall; simp [hall.1]
      cases rest with
      | nil => exact ⟨c, cs, rfl, hc⟩
      | cons seg2 rest => exact ⟨c, _, rfl, hc⟩

/-- `Clean` leaves a relative path of plain segments as it is. -/
theorem filepathClean_plain (segs : List (List Char)) (hne : segs ≠ [])
    (hplain : ∀ seg ∈ segs, plainSegment seg = true) :
    filepathClean (String.mk (joinSegments segs)) = String.mk (joinSegments segs) := by
  obtain ⟨c, rest, hj, hc⟩ := joinSegments_ne_nil segs hne hplain
  have hloop := cleanLoop_plain segs [] (joinSegments segs).length hne hplain (le_refl _)
  have hs : String.mk (joinSegments segs) ≠ "" := by
    rw [hj]
    intro h
    have := congrArg String.data h
    simp at this
  simp only [filepathClean, hs, if_false, String.toList]
  rw [hj] at hloop ⊢
  simp only [List.getD_cons_zero, hc, Bool.false_eq_true, if_false]
  rw [hloop]
  simp

/-- `Join` of two relative paths of plain segments is the two with a separator between. -/
theorem filepathJoin_plain (ps ns : List (List Char)) (hps : ps ≠ []) (hns : ns ≠ [])
    (hp : ∀ seg ∈ ps, plainSegment seg = true) (hn : ∀ seg ∈ ns, plainSegment seg = true) :
    filepathJoin [String.mk (joinSegments ps), String.mk (joinSegments ns)] =
      String.mk (joinSegments ps ++ '/' :: joinSegments ns) := by
  obtain ⟨c, rest, hj, _⟩ := joinSegments_ne_nil ps hps hp
  have hs : String.mk (joinSegments ps) ≠ "" := by
    rw [hj]
    intro h
    have := congrArg String.data h
    simp at this
  have hi : String.intercalate "/" [String.mk (joinSegments ps), String.mk (joinSegments ns)] =
      String.mk (joinSegments (ps ++ ns)) := by
    rw [joinSegments_append ps ns hps hns]
    simp [String.intercalate, String.intercalate.go, String.ext_iff]
  simp only [filepathJoin, hs, ne_eq, not_false_eq_true, if_true]
  rw [hi, filepathClean_plain (ps ++ ns) (by simp [hps]) (by
    intro seg hseg
    rcases List.mem_append.mp hseg with h | h
    · exact hp seg h
    · exact hn seg h), joinSegments_append ps ns hps hns]

/-! ## `Clean` element by element, and a prefix that stays in front -/

/-- A path always splits into at least one piece. -/
theorem splitSep_ne_nil (path : List Char) : splitSep path ≠ [] := by
  cases path with
  | nil => simp [splitSep]
  | cons c cs =>
    simp only [splitSep]
    split
    · simp
    · split <;> simp

/-- How `splitSep` treats the first character. -/
theorem splitSep_cons (c : Char) (cs : List Char) :
    splitSep (c :: cs) =
      if isPathSeparator c then [] :: splitSep cs
      else
        match splitSep cs with
        | [] => [[c]]
        | seg :: rest => (c :: seg) :: rest := rfl

/-- Splitting at a separator splits the pieces. -/
theorem splitSep_append (a b : List Char) :
    splitSep (a ++ '/' :: b) = splitSep a ++ splitSep b := by
  induction a with
  | nil => simp [splitSep, isPathSeparator]
  | cons c a ih =>
    rw [List.cons_append, splitSep_cons, splitSep_cons, ih]
    by_cases hc : isPathSeparator c = true
    · simp [hc]
    · cases hs : splitSep a with
      | nil => exact absurd hs (splitSep_ne_nil a)
      | cons seg rest => simp [hc]

/-- A run without a separator is one piece. -/
theorem splitSep_plain (seg : List Char)
    (hall : seg.all (fun c => !isPathSeparator c) = true) : splitSep seg = [seg] := by
  induction seg with
  | nil => rfl
  | cons c seg ih =>
    simp only [List.all_cons, Bool.and_eq_true, Bool.not_eq_true'] at hall
    simp [splitSep, hall.1, ih hall.2]

/-- No piece holds a separator. -/
theorem splitSep_no_sep (path : List Char) :
    ∀ seg ∈ splitSep path, seg.all (fun c => !isPathSeparator c) = true := by
  induction path with
  | nil => simp [splitSep]
  | cons c cs ih =>
    intro seg hseg
    simp only [splitSep] at hseg
    by_cases hc : isPathSeparator c = true
    · simp only [hc, if_true, List.mem_cons] at hseg
      rcases hseg with rfl | h
      · rfl
      · exact ih seg h
    · simp only [hc] at hseg
      cases hs : splitSep cs with
      | nil => exact absurd hs (splitSep_ne_nil cs)
      | cons s rest =>
        rw [hs] at hseg ih
        simp only [Bool.false_eq_true, if_false, List.mem_cons] at hseg
        rcases hseg with rfl | h
        · have := ih s (List.mem_cons_self _ _)
          simp only [List.all_cons, Bool.and_eq_true]
          exact ⟨by simpa using hc, this⟩
        · exact ih seg (List.mem_cons_of_mem _ h)

/-- The elements of two paths with a separator between. -/
theorem pathElems_append (a b : List Char) :
    pathElems (a ++ '/' :: b) = pathElems a ++ pathElems b := by
  simp [pathElems, splitSep_append]

/-- A leading separator adds no element. -/
theorem pathElems_sep (t : List Char) : pathElems ('/' :: t) = pathElems t := by
  simp [pathElems, splitSep, isPathSeparator]

/-- A non-empty run without a separator is one element. -/
theorem pathElems_plain (seg : List Char) (hne : seg ≠ [])
    (hall : seg.all (fun c => !isPathSeparator c) = true) : pathElems seg = [seg] := by
  cases seg with
  | nil => exact absurd rfl hne
  | cons c cs => simp [pathElems, splitSep_plain _ hall]

/-- A path element is not empty and holds no separator. -/
theorem pathElems_mem (path seg : List Char) (h : seg ∈ pathElems path) :
    seg ≠ [] ∧ seg.all (fun c => !isPathSeparator c) = true := by
  simp only [pathElems, List.mem_filter] at h
  refine ⟨?_, splitSep_no_sep path seg h.1⟩
  intro hn
  simp [hn] at h

/-- One iteration of the loop of `Clean` at the start of a path element does what
`cleanElem` does with the element, and goes on behind it. -/
theorem cleanLoop_elem_step (rooted : Bool) (seg tail out : List Char) (dotdot fuel : Nat)
    (hne : seg ≠ []) (hall : seg.all (fun c => !isPathSeparator c) = true)
    (htail : tail = [] ∨ ∃ t, tail = '/' :: t) :
    cleanLoop (seg ++ tail) rooted (fuel + 1) 0 out dotdot =
      cleanLoop tail rooted fuel 0 (cleanElem rooted (out, dotdot) seg).1
        (cleanElem rooted (out, dotdot) seg).2 := by
  have htw := takeWhile_plain seg tail hall htail
  rw [← cleanLoop_append seg tail rooted fuel 0]
  have hsl : isPathSeparator '/' = true := rfl
  rcases seg with _ | ⟨c, _ | ⟨d, _ | ⟨e, cs⟩⟩⟩
  · exact absurd rfl hne
  · have hc : isPathSeparator c = false := by simpa using hall
    by_cases hdot : c = '.'
    · subst hdot
      rcases htail with rfl | ⟨t, rfl⟩ <;> simp [cleanLoop, cleanElem, hc, hsl]
    · simp only [cleanLoop, List.drop_zero, htw]
      simp [hc, hdot, cleanElem]
  · have hc : isPathSeparator c = false := by simp at hall; simp [hall.1]
    have hd : isPathSeparator d = false := by simp at hall; simp [hall.2]
    by_cases hdd : c = '.' ∧ d = '.'
    · obtain ⟨rfl, rfl⟩ := hdd
      rcases htail with rfl | ⟨t, rfl⟩ <;>
        (simp [cleanLoop, cleanElem, hc, hsl]; split_ifs <;> rfl)
    · simp only [cleanLoop, List.drop_zero, htw]
      have hne2 : ¬ ([c, d] = ['.', '.']) := by simpa using hdd
      simp only [not_and] at hdd
      by_cases hcd : c = '.'
      · have hd' : d ≠ '.' := hdd hcd
        subst hcd
        simp [hc, hd, hd', cleanElem]
      · simp [hc, hd, hcd, cleanElem]
  · have hc : isPathSeparator c = false := by simp at hall; simp [hall.1]
    have hd : isPathSeparator d = false := by simp at hall; simp [hall.2.1]
    have he : isPathSeparator e = false := by simp at hall; simp [hall.2.2.1]
    simp only [cleanLoop, List.drop_zero, htw]
    simp [hc, hd, he, cleanElem]

/-- The separator is the slash. -/
theorem isPathSeparator_iff (c : Char) : isPathSeparator c = true ↔ c = '/' := by
  simp [isPathSeparator]

/-- A path starts with a run without a separator, followed by nothing or by a
separator. -/
theorem exists_elem_split (path : List Char) :
    ∃ seg tail, path = seg ++ tail ∧ seg.all (fun c => !isPathSeparator c) = true ∧
      (tail = [] ∨ ∃ t, tail = '/' :: t) := by
  induction path with
  | nil => exact ⟨[], [], rfl, rfl, Or.inl rfl⟩
  | cons c cs ih =>
    by_cases hc : isPathSeparator c = true
    · refine ⟨[], c :: cs, rfl, rfl, Or.inr ⟨cs, ?_⟩⟩
      rw [(isPathSeparator_iff c).mp hc]
    · obtain ⟨seg, tail, hp, hall, htail⟩ := ih
      refine ⟨c :: seg, tail, by rw [hp]; rfl, ?_, htail⟩
      simp only [List.all_cons, Bool.and_eq_true]
      exact ⟨by simpa using hc, hall⟩

/-- The elements of a path that starts with an element. -/
theorem pathElems_elem (seg tail : List Char) (hne : seg ≠ [])
    (hall : seg.all (fun c => !isPathSeparator c) = true)
    (htail : tail = [] ∨ ∃ t, tail = '/' :: t) :
    pathElems (seg ++ tail) = seg :: pathElems tail := by
  rcases htail with rfl | ⟨t, rfl⟩
  · rw [List.append_nil, pathElems_plain seg hne hall]
    rfl
  · rw [pathElems_append, pathElems_plain seg hne hall, pathElems_sep]
    rfl

/-- The loop of `Clean` is a fold of `cleanElem` over the elements of the path. -/
theorem cleanLoop_eq_fold (rooted : Bool) :
    ∀ (fuel : Nat) (path out : List Char) (dotdot : Nat), path.length ≤ fuel →
      cleanLoop path rooted fuel 0 out dotdot =
        (List.foldl (cleanElem rooted) (out, dotdot) (pathElems path)).1 := by
  intro fuel
  induction fuel with
  | zero =>
    intro path out dotdot h
    have : path = [] := List.length_eq_zero.mp (Nat.le_zero.mp h)
    subst this
    rfl
  | succ fuel ih =>
    intro path out dotdot h
    cases path with
    | nil => simp [cleanLoop, pathElems, splitSep]
    | cons c cs =>
      by_cases hc : isPathSeparator c = true
      · have hcs : c = '/' := (isPathSeparator_iff c).mp hc
        subst hcs
        have h1 : cleanLoop ('/' :: cs) rooted (fuel + 1) 0 out dotdot =
            cleanLoop ('/' :: cs) rooted fuel (0 + 1) out dotdot := by
          simp [cleanLoop, isPathSeparator]
        rw [h1, cleanLoop_cons, pathElems_sep]
        exact ih cs out dotdot (by simp at h; omega)
      · obtain ⟨seg, tail, hp, hall, htail⟩ := exists_elem_split (c :: cs)
        have hne : seg ≠ [] := by
          intro hs
          subst hs
          rcases htail with rfl | ⟨t, rfl⟩
          · simp at hp
          · simp only [List.nil_append, List.cons.injEq] at hp
            exact hc (by rw [hp.1]; rfl)
        have hlen : tail.length ≤ fuel := by
          have := congrArg List.length hp
          have hpos : 0 < seg.length := List.length_pos.mpr hne
          simp only [List.length_cons, List.length_append] at this h
          omega
        rw [hp, cleanLoop_elem_step rooted seg tail out dotdot fuel hne hall htail,
          pathElems_elem seg tail hne hall htail, List.foldl_cons]
        exact ih tail _ _ hlen

/-- Backtracking stays between the mark and the index it starts from. -/
theorem cleanBacktrack_le (out : List Char) (dotdot : Nat) :
    ∀ w, dotdot ≤ w → dotdot ≤ cleanBacktrack out dotdot w ∧ cleanBacktrack out dotdot w ≤ w := by
  intro w
  induction w with
  | zero => intro h; simp [cleanBacktrack] at h ⊢; exact h
  | succ w ih =>
    intro h
    simp only [cleanBacktrack]
    split
    · rename_i hc
      simp only [Bool.and_eq_true, decide_eq_true_eq] at hc
      have := ih (by omega)
      exact ⟨this.1, by omega⟩
    · exact ⟨h, le_refl _⟩

/-- Backtracking over the last element of the buffer stops at the separator in front
of it, or at the mark if that comes first. -/
theorem cleanBacktrack_elem (A s : List Char) (dotdot : Nat)
    (hall : s.all (fun c => !isPathSeparator c) = true) :
    ∀ k, k ≤ s.length →
      cleanBacktrack (A ++ '/' :: s) dotdot (A.length + k) =
        max A.length (min dotdot (A.length + k)) := by
  intro k
  induction k with
  | zero =>
    intro _
    cases hA : A.length with
    | zero => simp [cleanBacktrack]
    | succ w =>
      have hg : (A ++ '/' :: s).getD (w + 1) '/' = '/' := by
        rw [← hA, List.getD_append_right _ _ _ _ (le_refl _)]
        simp
      simp only [Nat.add_zero, cleanBacktrack, hg]
      simp [isPathSeparator]
  | succ k ih =>
    intro hk
    have hks : k < s.length := by omega
    have hg : (A ++ '/' :: s).getD (A.length + (k + 1)) '/' = s[k] := by
      rw [List.getD_append_right _ _ _ _ (by omega)]
      have : A.length + (k + 1) - A.length = k + 1 := by omega
      rw [this, List.getD_cons_succ, List.getD_eq_getElem _ _ hks]
    have hns : isPathSeparator s[k] = false := by
      have := List.all_eq_true.mp hall s[k] (List.getElem_mem hks)
      simpa using this
    have e : A.length + (k + 1) = (A.length + k) + 1 := by omega
    rw [e, cleanBacktrack, ← e, hg, hns]
    by_cases hd : A.length + (k + 1) > dotdot
    · simp only [hd, decide_True, Bool.not_false, Bool.and_self, if_true]
      rw [ih (by omega)]
      omega
    · simp only [hd, decide_False, Bool.false_and, Bool.false_eq_true, if_false]
      omega

/-- Entering one more element appends a separator and the element. -/
theorem stackTail_concat (stack : List (List Char)) (s : List Char) :
    stackTail (stack ++ [s]) = stackTail stack ++ '/' :: s := by
  induction stack with
  | nil => simp [stackTail]
  | cons t ts ih => simp [stackTail, ih]

/-- One element keeps the mark within the buffer, and at 1 for a rooted path. -/
theorem cleanElem_mark (rooted : Bool) (st : List Char × Nat) (seg : List Char)
    (h1 : st.2 ≤ st.1.length) (h2 : rooted = true → st.2 = 1) :
    (cleanElem rooted st seg).2 ≤ (cleanElem rooted st seg).1.length ∧
    (rooted = true → (cleanElem rooted st seg).2 = 1) := by
  obtain ⟨out, dd⟩ := st
  simp only at h1 h2
  unfold cleanElem
  simp only
  split
  · exact ⟨h1, h2⟩
  · split
    · split
      · rename_i hlt
        have hb := cleanBacktrack_le out dd (out.length - 1) (by omega)
        refine ⟨?_, h2⟩
        simp only [List.length_take]
        omega
      · split
        · rename_i hr
          refine ⟨le_refl _, ?_⟩
          intro hrt
          simp [hrt] at hr
        · exact ⟨h1, h2⟩
    · refine ⟨?_, h2⟩
      simp only [List.length_append]
      split
      · simp only [List.length_append, List.length_singleton]
        omega
      · omega

/-- All elements keep the mark within the buffer, and at 1 for a rooted path. -/
theorem cleanFold_mark (rooted : Bool) (elems : List (List Char)) :
    ∀ st : List Char × Nat, st.2 ≤ st.1.length → (rooted = true → st.2 = 1) →
      (List.foldl (cleanElem rooted) st elems).2 ≤
        (List.foldl (cleanElem rooted) st elems).1.length ∧
      (rooted = true → (List.foldl (cleanElem rooted) st elems).2 = 1) := by
  induction elems with
  | nil => intro st h1 h2; exact ⟨h1, h2⟩
  | cons seg rest ih =>
    intro st h1 h2
    obtain ⟨g1, g2⟩ := cleanElem_mark rooted st seg h1 h2
    exact ih _ g1 g2

/-- A non-empty stack takes room in the buffer. -/
theorem stackTail_length_pos (t : List Char) (ts : List (List Char)) :
    0 < (stackTail (t :: ts)).length := by
  simp [stackTail]

/-- The room a non-empty stack takes in the buffer. -/
theorem stackTail_cons_length (t : List Char) (ts : List (List Char)) :
    (stackTail (t :: ts)).length = t.length + (stackTail ts).length + 1 := by
  simp [stackTail]

/-- Cutting an appended list at the length of its first part. -/
theorem take_append_length (A B : List Char) : (A ++ B).take A.length = A := by
  simp

/-- One element of a name that does not climb keeps the loop below the prefix. -/
theorem cleanElem_below (P : List Char) (rooted : Bool) (stack : List (List Char))
    (st : List Char × Nat) (seg : List Char) (rest : List (List Char)) (hP : P ≠ [])
    (hroot : rooted = isPathSeparator (P.getD 0 '/'))
    (hinv : BelowPrefix P rooted stack st) (hne : seg ≠ [])
    (hall : seg.all (fun c => !isPathSeparator c) = true)
    (hnc : noClimb stack.length (seg :: rest) = true) :
    ∃ stack', BelowPrefix P rooted stack' (cleanElem rooted st seg) ∧
      noClimb stack'.length rest = true := by
  obtain ⟨out, dd⟩ := st
  obtain ⟨hdd, hr1, hst, hout⟩ := hinv
  simp only at hdd hr1 hout
  have hPlen : 0 < P.length := List.length_pos.mpr hP
  by_cases h1 : seg = ['.']
  · refine ⟨stack, ?_, ?_⟩
    · simp only [cleanElem, h1, if_true]
      exact ⟨hdd, hr1, hst, hout⟩
    · simpa [noClimb, h1] using hnc
  by_cases h2 : seg = ['.', '.']
  · have hnc' : stack.length ≠ 0 ∧ noClimb (stack.length - 1) rest = true := by
      simpa [noClimb, h2] using hnc
    rcases List.eq_nil_or_concat stack with hs | ⟨stack0, s, hs⟩
    · rw [hs] at hnc'
      exact absurd rfl hnc'.1
    rw [List.concat_eq_append] at hs
    subst hs
    have hs_ok := hst s (by simp)
    have hst0 : ∀ t ∈ stack0, t ≠ [] ∧ t.all (fun c => !isPathSeparator c) = true :=
      fun t ht => hst t (by simp [ht])
    have hslen : 0 < s.length := List.length_pos.mpr hs_ok.1
    have hnc0 : noClimb stack0.length rest = true := by
      simpa using hnc'.2
    refine ⟨stack0, ?_, hnc0⟩
    rw [stackTail_concat] at hout
    by_cases hP1 : P = ['/']
    · -- the prefix is the root
      have hrt : rooted = true := by rw [hroot, hP1]; rfl
      have hd1 : dd = 1 := hr1 hrt
      subst hd1
      have hout' : out = stackTail stack0 ++ '/' :: s := by
        rw [hout]; simp [hP1]
      have hlen : out.length = (stackTail stack0).length + s.length + 1 := by
        rw [hout']; simp; omega
      have hbt := cleanBacktrack_elem (stackTail stack0) s 1 hs_ok.2 s.length (le_refl _)
      rw [← hout'] at hbt
      have hgt : out.length > 1 := by omega
      have hw : out.length - 1 = (stackTail stack0).length + s.length := by omega
      simp only [cleanElem, h2, if_true, hgt, hw, hbt]
      simp only [List.cons.injEq, List.cons_ne_self, and_false, if_false, reduceCtorEq]
      refine ⟨by rw [hP1]; simp, fun _ => rfl, hst0, ?_⟩
      simp only
      cases stack0 with
      | nil =>
        simp only [stackTail, List.length_nil, Nat.zero_add] at hbt ⊢
        have : max 0 (min 1 s.length) = 1 := by omega
        rw [this, hout', hP1]
        simp [stackTail]
      | cons t ts =>
        have hp := stackTail_length_pos t ts
        have : max (stackTail (t :: ts)).length
            (min 1 ((stackTail (t :: ts)).length + s.length)) = (stackTail (t :: ts)).length := by
          omega
        rw [this, hout']
        simp [hP1]
    · have hout' : out = (P ++ stackTail stack0) ++ '/' :: s := by
        rw [hout]; simp [hP1]
      have hlen : out.length = (P ++ stackTail stack0).length + s.length + 1 := by
        rw [hout']; simp; omega
      have hbt := cleanBacktrack_elem (P ++ stackTail stack0) s dd hs_ok.2 s.length (le_refl _)
      rw [← hout'] at hbt
      have hAlen : P.length ≤ (P ++ stackTail stack0).length := by simp
      have hgt : out.length > dd := by omega
      have hw : out.length - 1 = (P ++ stackTail stack0).length + s.length := by omega
      have hmax : max (P ++ stackTail stack0).length
          (min dd ((P ++ stackTail stack0).length + s.length)) =
          (P ++ stackTail stack0).length := by omega
      simp only [cleanElem, h2, if_true, hgt, hw, hbt, hmax]
      simp only [List.cons.injEq, List.cons_ne_self, and_false, if_false, reduceCtorEq]
      refine ⟨hdd, hr1, hst0, ?_⟩
      simp only [hP1, false_and, if_false]
      rw [hout']
      exact take_append_length _ _
  · -- a real path element
    have hnc' : noClimb (stack.length + 1) rest = true := by
      simpa [noClimb, h1, h2] using hnc
    refine ⟨stack ++ [seg], ?_, by simpa using hnc'⟩
    have hst' : ∀ t ∈ stack ++ [seg], t ≠ [] ∧ t.all (fun c => !isPathSeparator c) = true := by
      intro t ht
      rcases List.mem_append.mp ht with h | h
      · exact hst t h
      · simp only [List.mem_singleton] at h
        subst h
        exact ⟨hne, hall⟩
    simp only [cleanElem, h1, h2, if_false]
    refine ⟨hdd, hr1, hst', ?_⟩
    simp only
    rw [stackTail_concat]
    by_cases hP1 : P = ['/']
    · have hrt : rooted = true := by rw [hroot, hP1]; rfl
      subst hrt
      cases stack with
      | nil =>
        have ho : out = ['/'] := by rw [hout]; simp [hP1, stackTail]
        subst ho
        simp [hP1, stackTail]
      | cons t ts =>
        have ho : out = stackTail (t :: ts) := by rw [hout]; simp [hP1]
        have htl : 0 < t.length := List.length_pos.mpr (hst t (by simp)).1
        have hl : out.length ≠ 1 := by
          rw [ho, stackTail_cons_length]
          omega
        have hcond : ((true && out.length != 1) || (!true && out.length != 0)) = true := by
          simp [hl]
        simp only [hcond, if_true]
        rw [ho]
        simp [hP1]
    · have ho : out = P ++ stackTail stack := by rw [hout]; simp [hP1]
      have hlen : out.length = P.length + (stackTail stack).length := by
        rw [ho, List.length_append]
      have hl1 : rooted = true → P.length ≠ 1 := by
        intro hrt h1l
        apply hP1
        match P, h1l with
        | [c], _ =>
          have : isPathSeparator c = true := by rw [hrt] at hroot; simpa using hroot.symm
          rw [(isPathSeparator_iff c).mp this]
      have hcond : ((rooted && out.length != 1) || (!rooted && out.length != 0)) = true := by
        cases rooted with
        | true =>
          have := hl1 rfl
          have : out.length ≠ 1 := by omega
          simp [this]
        | false =>
          have : out.length ≠ 0 := by omega
          simp [this]
      simp only [hcond, if_true]
      rw [ho]
      simp [hP1]

/-- Below a prefix the buffer begins with the prefix. -/
theorem belowPrefix_isPrefix (P : List Char) (rooted : Bool) (stack : List (List Char))
    (st : List Char × Nat) (h : BelowPrefix P rooted stack st) : P <+: st.1 := by
  obtain ⟨_, _, _, hout⟩ := h
  rw [hout]
  split
  · rename_i hc
    obtain ⟨hP1, hs⟩ := hc
    cases stack with
    | nil => exact absurd rfl hs
    | cons t ts =>
      rw [hP1]
      exact ⟨t ++ stackTail ts, by simp [stackTail]⟩
  · exact ⟨stackTail stack, rfl⟩

/-- All elements of a name that does not climb keep the buffer beginning with the
prefix. -/
theorem cleanFold_below (P : List Char) (rooted : Bool) (hP : P ≠ [])
    (hroot : rooted = isPathSeparator (P.getD 0 '/')) (elems : List (List Char)) :
    ∀ (stack : List (List Char)) (st : List Char × Nat), BelowPrefix P rooted stack st →
      (∀ seg ∈ elems, seg ≠ [] ∧ seg.all (fun c => !isPathSeparator c) = true) →
      noClimb stack.length elems = true →
      P <+: (List.foldl (cleanElem rooted) st elems).1 := by
  induction elems with
  | nil =>
    intro stack st hinv _ _
    exact belowPrefix_isPrefix P rooted stack st hinv
  | cons seg rest ih =>
    intro stack st hinv hel hnc
    obtain ⟨hne, hall⟩ := hel seg (List.mem_cons_self _ _)
    obtain ⟨stack', hinv', hnc'⟩ :=
      cleanElem_below P rooted stack st seg rest hP hroot hinv hne hall hnc
    exact ih stack' _ hinv' (fun s hs => hel s (List.mem_cons_of_mem _ hs)) hnc'

/-- The function `filepath.Clean` as a fold of `cleanElem` over the elements of the path. -/
theorem filepathClean_eq_fold (path : String) (h : path ≠ "") :
    filepathClean path =
      String.mk
        (if (List.foldl (cleanElem (isPathSeparator (path.toList.getD 0 '/')))
              (cleanStart (isPathSeparator (path.toList.getD 0 '/')))
              (pathElems path.toList)).1.length = 0
          then ['.']
          else (List.foldl (cleanElem (isPathSeparator (path.toList.getD 0 '/')))
              (cleanStart (isPathSeparator (path.toList.getD 0 '/')))
              (pathElems path.toList)).1) := by
  simp only [filepathClean, h, if_false]
  cases hr : isPathSeparator (path.toList.getD 0 '/') with
  | false =>
    simp only [Bool.false_eq_true, if_false, cleanStart]
    rw [cleanLoop_eq_fold false _ _ _ _ (le_refl _)]
  | true =>
    simp only [if_true, cleanStart]
    cases hp : path.toList with
    | nil =>
      rw [hp] at hr
      simp [isPathSeparator] at hr
      exact absurd (String.ext hp) h
    | cons c t =>
      rw [hp] at hr
      simp only [List.getD_cons_zero] at hr
      have hc : c = '/' := (isPathSeparator_iff c).mp hr
      subst hc
      have e : (1 : Nat) = 0 + 1 := rfl
      rw [e, cleanLoop_cons, cleanLoop_eq_fold true _ _ _ _ (by simp), pathElems_sep]

/-- The function `filepath.Join` of a non-empty first element and a second one cleans
the two with a separator between. -/
theorem filepathJoin_eq_clean (pre name : String) (hne : pre ≠ "") :
    filepathJoin [pre, name] = filepathClean (pre ++ "/" ++ name) := by
  have hi : String.intercalate "/" [pre, name] = pre ++ "/" ++ name := by
    simp [String.intercalate, String.intercalate.go]
  simp only [filepathJoin, hne, ne_eq, not_false_eq_true, if_true, hi]

/-- A clean prefix stays in front: when `Clean` leaves the non-empty prefix as it is, the
prefix is not `.`, and no `..` of the name climbs above the start of the name, the joined
path begins with the prefix. -/
theorem filepathJoin_prefix (pre name : String) (hne : pre ≠ "")
    (hclean : filepathClean pre = pre) (hdot : pre ≠ ".")
    (hnc : noClimb 0 (pathElems name.toList) = true) :
    pre.toList <+: (filepathJoin [pre, name]).toList := by
  have hP : pre.toList ≠ [] := by
    intro h
    exact hne (String.ext h)
  have hjne : pre ++ "/" ++ name ≠ "" := by
    intro h
    have := congrArg String.toList h
    simp at this
  have hl : (pre ++ "/" ++ name).toList = pre.toList ++ '/' :: name.toList := by
    simp
  have hroot : isPathSeparator ((pre.toList ++ '/' :: name.toList).getD 0 '/') =
      isPathSeparator (pre.toList.getD 0 '/') := by
    cases hp : pre.toList with
    | nil => exact absurd hp hP
    | cons c t => rfl
  have hc := filepathClean_eq_fold pre hne
  have hj := filepathClean_eq_fold (pre ++ "/" ++ name) hjne
  rw [hl, hroot, pathElems_append, List.foldl_append] at hj
  rw [hclean] at hc
  have hmark := cleanFold_mark (isPathSeparator (pre.toList.getD 0 '/'))
    (pathElems pre.toList) (cleanStart (isPathSeparator (pre.toList.getD 0 '/')))
    (by cases isPathSeparator (pre.toList.getD 0 '/') <;> simp [cleanStart])
    (by cases isPathSeparator (pre.toList.getD 0 '/') <;> simp [cleanStart])
  -- name the state after the prefix
  generalize hS : List.foldl (cleanElem (isPathSeparator (pre.toList.getD 0 '/')))
    (cleanStart (isPathSeparator (pre.toList.getD 0 '/'))) (pathElems pre.toList) = stP
    at hc hj hmark
  have hcl : pre.toList = if stP.1.length = 0 then ['.'] else stP.1 :=
    congrArg String.toList hc
  have hout : stP.1 = pre.toList := by
    split at hcl
    · exfalso
      apply hdot
      exact String.ext hcl
    · exact hcl.symm
  have hinv : BelowPrefix pre.toList (isPathSeparator (pre.toList.getD 0 '/')) [] stP := by
    refine ⟨?_, hmark.2, by simp, ?_⟩
    · have := hmark.1
      rw [hout] at this
      exact this
    · simp [stackTail, hout]
  have hfin := cleanFold_below pre.toList (isPathSeparator (pre.toList.getD 0 '/')) hP rfl
    (pathElems name.toList) [] stP hinv (fun seg hs => pathElems_mem _ _ hs) hnc
  have hpos : (List.foldl (cleanElem (isPathSeparator (pre.toList.getD 0 '/'))) stP
      (pathElems name.toList)).1.length ≠ 0 := by
    have hle := List.IsPrefix.length_le hfin
    have := List.length_pos.mpr hP
    omega
  rw [if_neg hpos] at hj
  rw [filepathJoin_eq_clean pre name hne, hj]
  exact hfin

/-- C15, as stated, fails: the identifier need not begin with the prefix.  With the
prefix `app` and the name `../other`, `filepath.Join` gives `other`, which does not begin
with `app`, and that is the identifier `Write` sends in its `CreateSecret`.  The same
happens when the prefix is not clean (`app//prod` with `k` gives `app/prod/k`, and `app/`
with `.` gives `app`) and when the prefix is `.` (with `k` it gives `k`). -/
theorem storageAws_identifier_leaves_prefix :
    filepathJoin ["app", "../other"] = "other" ∧
    ¬ ("app".toList <+: (filepathJoin ["app", "../other"]).toList) ∧
    (StorageAws.Write (some (kvStore (some Entries.empty) "app")) "../other" (some [1])
      (kvWorld Entries.empty)).2.2.calls = [Call.CreateSecret "other" (some [1])] ∧
    ¬ ("app//prod".toList <+: (filepathJoin ["app//prod", "k"]).toList) ∧
    ¬ ("app/".toList <+: (filepathJoin ["app/", "."]).toList) ∧
    ¬ (".".toList <+: (filepathJoin [".", "k"]).toList) := by
  decide

/-- C15, amended.  On a `StorageAws` with a non-empty prefix, for every name, the
identifier is `filepath.Join(prefix, name)`, which is `filepath.Clean` of the prefix, a
separator and the name; it is the identifier in the `GetSecretValue` of a `Read` that
misses the cache, in the `CreateSecret` and the `UpdateSecret` of `Write`, and in the
`DeleteSecret` of a `Delete` on a non-nil cache.  It begins with the prefix whenever
`Clean` leaves the prefix as it is, the prefix is not `.`, and no `..` element of the name
climbs above the start of the name.  In particular the prefix `app/prod` and the name
`api-key` give `app/prod/api-key`. -/
theorem storageAws_identifier_join {σ : Type} (s : StorageAws σ) (name : String)
    (dat : Bytes) (w : World σ) (hne : s.secretPrefix ≠ "") :
    filepathJoin [s.secretPrefix, name] = filepathClean (s.secretPrefix ++ "/" ++ name) ∧
    (s.keys.lookup name = none →
      (StorageAws.Read (some s) name w).2.2.calls =
        w.calls ++ [Call.GetSecretValue (filepathClean (s.secretPrefix ++ "/" ++ name))]) ∧
    (∃ rest, (StorageAws.Write (some s) name dat w).2.2.calls =
        w.calls ++
          Call.CreateSecret (filepathClean (s.secretPrefix ++ "/" ++ name)) dat :: rest ∧
      ∀ c ∈ rest, c = Call.UpdateSecret (filepathClean (s.secretPrefix ++ "/" ++ name)) dat) ∧
    (s.keys ≠ none →
      (StorageAws.Delete (some s) name w).2.2.calls =
        w.calls ++ [Call.DeleteSecret (filepathClean (s.secretPrefix ++ "/" ++ name))]) ∧
    (filepathClean s.secretPrefix = s.secretPrefix → s.secretPrefix ≠ "." →
      noClimb 0 (pathElems name.toList) = true →
      s.secretPrefix.toList <+: (filepathJoin [s.secretPrefix, name]).toList) ∧
    filepathJoin ["app/prod", "api-key"] = "app/prod/api-key" := by
  have hjoin := filepathJoin_eq_clean s.secretPrefix name hne
  refine ⟨hjoin, ?_, ?_, ?_, ?_, by decide⟩
  · intro hmiss
    rw [storageAws_read_miss_calls s name w hmiss, hjoin]
  · rw [storageAws_write_call_sequence, hjoin]
    refine ⟨_, rfl, ?_⟩
    intro c hc
    split at hc
    · simpa using hc
    · simp at hc
  · intro hk
    cases hkeys : s.keys with
    | none => exact absurd hkeys hk
    | some e =>
      obtain ⟨_, hw, _⟩ := storageAws_delete_cases s name w e hkeys
      rw [hw, hjoin]
  · intro hclean hdot hnc
    exact filepathJoin_prefix s.secretPrefix name hne hclean hdot hnc

/-- C15 amended, at a concrete input: a rooted prefix `/app/prod` and the name
`./a//b/../k/`, with a `.` element, a doubled and a trailing separator and a `..` that
stays below the prefix.  The identifier is `/app/prod/a/k` and begins with the prefix. -/
theorem storageAws_identifier_join_witness :
    (kvStore (some Entries.empty) "/app/prod").secretPrefix ≠ "" ∧
    filepathJoin [(kvStore (some Entries.empty) "/app/prod").secretPrefix, "./a//b/../k/"] =
      "/app/prod/a/k" ∧
    (kvStore (some Entries.empty) "/app/prod").secretPrefix.toList <+:
      (filepathJoin [(kvStore (some Entries.empty) "/app/prod").secretPrefix,
        "./a//b/../k/"]).toList :=
  ⟨by decide, by decide,
    (storageAws_identifier_join (kvStore (some Entries.empty) "/app/prod") "./a//b/../k/"
      (some [1]) (kvWorld Entries.empty) (by decide)).2.2.2.2.1
      (by decide) (by decide) (by decide)⟩

end Cryptoengine
